import Mathlib

/-!
Verification development for the mini-reconciliation-tool repository.

The embedding models the reconciliation core of the repository:

* `reconcileTransactions` (src/utils/reconciliation.ts) — the single-pair
  matcher built on two insertion-ordered, reference-keyed maps.
* `findFieldMismatches` — field-level mismatch detection for the fields
  amount, status and date.
* `processBatchReconciliation` / `calculateBatchStats`
  (src/utils/batchReconciliation.ts) — the batch orchestrator with
  per-pair failure isolation.
* `generateInsights` (src/utils/analytics.ts) — the match-rate insight
  classifier of the analytics aggregator.

Modelling conventions:

* JavaScript `Map` objects are modelled as insertion-ordered association
  lists (`List (String × Transaction)`): `Map.set` overwrites the value of
  an existing key in place (keeping the original position) and appends new
  keys at the end, exactly as the JavaScript semantics prescribe.
* Numeric amounts are modelled as exact rationals (`ℚ`).  The source keeps
  amounts as JavaScript numbers and normalises strings with `parseFloat`
  before comparing; the embedding works with the already-parsed numeric
  value.  The tolerance comparison `abs(a - b) < 0.01` is stated over `ℚ`.
* Absent (null / undefined) field values are modelled with `Option`.
* Wall-clock quantities (`processingTimeMs`, `processedAt` dates,
  `averageProcessingTime`) are not modelled numerically; `processedAt` is
  kept as a flag recording whether the timestamp was stamped.
* The presentational strings of analytics insights (description, value,
  recommendation — all produced with `toFixed` formatting) are not
  modelled; the classification-relevant fields (id, type, title, impact)
  are kept.
-/

namespace MiniRecon

/-- A transaction record (src/types/transaction.ts).  The reference is the
required join key; amount, status, date and description may be absent at
runtime and are therefore modelled with `Option`. -/
structure Transaction where
  transaction_reference : String
  amount : Option ℚ
  status : Option String
  date : Option String
  description : Option String
deriving DecidableEq

/-- A raw field value carried inside a `FieldMismatch` (the source stores
the untyped raw values). -/
inductive FieldValue where
  | num (q : ℚ)
  | str (s : String)
deriving DecidableEq

/-- One detected field-level discrepancy within a matched pair
(src/types/transaction.ts). -/
structure FieldMismatch where
  field : String
  internalValue : FieldValue
  providerValue : FieldValue
deriving DecidableEq

/-- Summary statistics of one matcher run (src/types/transaction.ts). -/
structure ReconciliationStats where
  totalInternal : ℕ
  totalProvider : ℕ
  matched : ℕ
  internalOnly : ℕ
  providerOnly : ℕ
  matchRate : ℚ
deriving DecidableEq

/-- One matched pair together with its field mismatches. -/
structure TransactionMatch where
  internal : Transaction
  provider : Transaction
  mismatches : List FieldMismatch
deriving DecidableEq

/-- The result of one matcher run. -/
structure ReconciliationResult where
  matched : List TransactionMatch
  internalOnly : List Transaction
  providerOnly : List Transaction
  stats : ReconciliationStats
deriving DecidableEq

/-! ### Insertion-ordered reference-keyed maps

JavaScript `Map` semantics: `get` returns the value stored for a key,
`set` overwrites in place (an existing key keeps its position; a new key
is appended), `delete` removes the entry of a key, and iteration follows
insertion order. -/

/-- `Map.get`: first entry with the given key. -/
def mapGet {α : Type} : List (String × α) → String → Option α
  | [], _ => none
  | (k', v) :: rest, k => if k' = k then some v else mapGet rest k

/-- `Map.set`: overwrite in place, or append a new key at the end. -/
def mapSet {α : Type} : List (String × α) → String → α → List (String × α)
  | [], k, v => [(k, v)]
  | (k', v') :: rest, k, v =>
      if k' = k then (k, v) :: rest else (k', v') :: mapSet rest k v

/-- `Map.delete`: drop the entries of a key. -/
def mapDelete {α : Type} (m : List (String × α)) (k : String) : List (String × α) :=
  m.filter (fun e => e.1 != k)

/-! ### Explicit models of the JavaScript primitives used by the core -/

/-- Model of the JavaScript string method `trim`: drop leading and
trailing whitespace characters. -/
def jsTrim (s : String) : String :=
  ⟨(((s.data.dropWhile Char.isWhitespace).reverse).dropWhile Char.isWhitespace).reverse⟩

/-- Model of the JavaScript string method `toLowerCase` (the compared
values are plain ASCII statuses and ISO dates). -/
def jsToLower (s : String) : String :=
  ⟨s.data.map Char.toLower⟩

/-- Model of `Math.abs` on the exact rationals used for amounts. -/
def jsAbs (q : ℚ) : ℚ :=
  if q < 0 then -q else q

/-! ### Field mismatch detection (findFieldMismatches) -/

/-- The amount comparison of `findFieldMismatches`: skipped when either
side is absent, otherwise equal within an absolute tolerance of 0.01. -/
def compareAmount (i p : Option ℚ) : List FieldMismatch :=
  match i, p with
  | some a, some b =>
      if jsAbs (a - b) < 1 / 100 then [] else [⟨"amount", .num a, .num b⟩]
  | _, _ => []

/-- The status / date comparison of `findFieldMismatches`: skipped when
either side is absent, otherwise case-insensitive string equality. -/
def compareText (field : String) (i p : Option String) : List FieldMismatch :=
  match i, p with
  | some a, some b =>
      if jsToLower a = jsToLower b then [] else [⟨field, .str a, .str b⟩]
  | _, _ => []

/-- `findFieldMismatches` (src/utils/reconciliation.ts): the fields
amount, status and date are compared independently, in that order. -/
def findFieldMismatches (internal provider : Transaction) : List FieldMismatch :=
  compareAmount internal.amount provider.amount
    ++ compareText "status" internal.status provider.status
    ++ compareText "date" internal.date provider.date

/-! ### The matcher (reconcileTransactions) -/

/-- The lookup key of a record: its trimmed reference
(`transaction.transaction_reference.toString().trim()`). -/
def refKey (t : Transaction) : String :=
  jsTrim t.transaction_reference

/-- Map population loop of `reconcileTransactions`: every record is
`set` under its trimmed reference, so later duplicates overwrite earlier
ones while keeping the first-insertion position of the key. -/
def buildRefMap (ts : List Transaction) : List (String × Transaction) :=
  ts.foldl (fun m t => mapSet m (refKey t) t) []

/-- The match loop of `reconcileTransactions`: iterate the internal map in
insertion order; a key present in the provider map yields a match (and the
provider entry is deleted), otherwise the record is internal-only.  The
third component is the provider map left after the iteration. -/
def reconLoop :
    List (String × Transaction) → List (String × Transaction) →
      List TransactionMatch × List Transaction × List (String × Transaction)
  | [], providerMap => ([], [], providerMap)
  | (ref, internalTx) :: rest, providerMap =>
    match mapGet providerMap ref with
    | some providerTx =>
        let out := reconLoop rest (mapDelete providerMap ref)
        (⟨internalTx, providerTx, findFieldMismatches internalTx providerTx⟩ :: out.1,
          out.2.1, out.2.2)
    | none =>
        let out := reconLoop rest providerMap
        (out.1, internalTx :: out.2.1, out.2.2)

/-- `reconcileTransactions` (src/utils/reconciliation.ts).  The stats use
the raw input lengths as totals, and the match rate divides by the raw
internal input length, guarded against the empty case. -/
def reconcileTransactions (internalData providerData : List Transaction) :
    ReconciliationResult :=
  let internalMap := buildRefMap internalData
  let providerMap := buildRefMap providerData
  let out := reconLoop internalMap providerMap
  let matched := out.1
  let internalOnly := out.2.1
  let providerOnly := out.2.2.map Prod.snd
  { matched := matched
    internalOnly := internalOnly
    providerOnly := providerOnly
    stats :=
      { totalInternal := internalData.length
        totalProvider := providerData.length
        matched := matched.length
        internalOnly := internalOnly.length
        providerOnly := providerOnly.length
        matchRate :=
          if 0 < internalData.length then
            (matched.length : ℚ) / (internalData.length : ℚ) * 100
          else 0 } }

/-! ### Derived description functions used in the statements -/

/-- The distinct members of a list of keys, in first-occurrence order.
This describes the key set of an insertion-ordered map populated by
overwriting `set` calls. -/
def distinctKeys : List String → List String
  | [] => []
  | k :: rest => k :: (distinctKeys rest).filter (fun x => x != k)

/-- The last record of a list whose trimmed reference equals a key — the
record that a last-write-wins lookup retains. -/
def lastWithReference (ts : List Transaction) (k : String) : Option Transaction :=
  ts.foldl (fun acc t => if refKey t = k then some t else acc) none

/-- Spec-level predicate (section 8 of the spec, mismatch symmetry): the
amount field agrees when one side is absent or the two values differ by
less than 0.01. -/
def amountFieldAgrees (i p : Transaction) : Prop :=
  ∀ a b, i.amount = some a → p.amount = some b → |a - b| < 1 / 100

/-- Spec-level predicate: a text field (status or date) agrees when one
side is absent or the two values are equal case-insensitively. -/
def textFieldAgrees (fi fp : Option String) : Prop :=
  ∀ a b, fi = some a → fp = some b → jsToLower a = jsToLower b

/-! ### Batch orchestration (src/utils/batchReconciliation.ts)

The batch pipeline receives parser output, where rows are dynamically
typed; a row whose reference field is missing makes the matcher throw
when it calls `toString` on it.  Fallible processing is therefore
modelled with `Except`: a raw row carries an optional reference, and the
per-pair matcher call fails on the first row without one. -/

/-- The lifecycle status of one file pair. -/
inductive PairStatus where
  | pending
  | processing
  | completed
  | failed
deriving DecidableEq

/-- A raw transaction row as handed over by a parser: dynamically typed,
so the reference itself may be missing. -/
structure RawTransaction where
  transaction_reference : Option String
  amount : Option ℚ
  status : Option String
  date : Option String
  description : Option String
deriving DecidableEq

/-- A parsed file (name and rows; the headers and byte size play no role
in the claims). -/
structure ParsedFile where
  name : String
  data : List RawTransaction
deriving DecidableEq

/-- One unit of batch work (src/types/transaction.ts).  `processedAt`
records whether the completion timestamp was stamped. -/
structure FilePair where
  id : String
  internalFile : ParsedFile
  providerFile : ParsedFile
  status : PairStatus
  result : Option ReconciliationResult
  error : Option String
  processedAt : Bool
deriving DecidableEq

/-- Aggregate statistics of one batch run (src/types/transaction.ts).
`averageProcessingTime` is wall-clock derived and not modelled. -/
structure BatchStats where
  totalFilePairs : ℕ
  successfulPairs : ℕ
  failedPairs : ℕ
  totalTransactionsInternal : ℕ
  totalTransactionsProvider : ℕ
  totalMatched : ℕ
  totalInternalOnly : ℕ
  totalProviderOnly : ℕ
  overallMatchRate : ℚ
deriving DecidableEq

/-- The result of one batch run. -/
structure BatchReconciliationResult where
  filePairs : List FilePair
  aggregateStats : BatchStats
deriving DecidableEq

/-- Reading the reference of a raw row models
`transaction.transaction_reference.toString()`: a missing field makes the
JavaScript runtime throw a TypeError. -/
def readReference (t : RawTransaction) : Except String String :=
  match t.transaction_reference with
  | some r => .ok r
  | none => .error "Cannot read properties of undefined"

/-- Conversion of a raw row into a matcher transaction; fails exactly
when the reference is missing. -/
def toTransaction (t : RawTransaction) : Except String Transaction :=
  (readReference t).map fun r => ⟨r, t.amount, t.status, t.date, t.description⟩

/-- The matcher call made inside the batch loop: converting any raw row
without a reference throws, and the error is caught by the per-pair
try/catch of the orchestrator. -/
def reconcileTransactionsE (internalData providerData : List RawTransaction) :
    Except String ReconciliationResult := do
  let i ← internalData.mapM toTransaction
  let p ← providerData.mapM toTransaction
  pure (reconcileTransactions i p)

/-- First mutation of the batch loop body: the pair enters `processing`. -/
def markProcessing (pair : FilePair) : FilePair :=
  { pair with status := .processing }

/-- Rest of the batch loop body: on success the pair completes with its
result and timestamp; on failure the error is caught, the pair is marked
failed with the message, and processing continues. -/
def finishPair (pair : FilePair) : FilePair :=
  match reconcileTransactionsE pair.internalFile.data pair.providerFile.data with
  | .ok result =>
      { pair with status := .completed, result := some result, processedAt := true }
  | .error e =>
      { pair with status := .failed, error := some e, processedAt := true }

/-- One full iteration of the batch loop for one pair. -/
def processPair (pair : FilePair) : FilePair :=
  finishPair (markProcessing pair)

/-- The successive values taken by the `status` field of one pair during
its processing: the submitted status, then `processing`, then the final
status. -/
def statusTrace (pair : FilePair) : List PairStatus :=
  [pair.status, (markProcessing pair).status, (processPair pair).status]

/-- Whether the matcher call of a pair succeeds (the pair is crafted to
succeed rather than to fail). -/
def pairOk (pair : FilePair) : Bool :=
  (reconcileTransactionsE pair.internalFile.data pair.providerFile.data).isOk

/-- Projection of the stats of a processed pair, zero when absent —
models the `if (pair.result)` guard of the aggregation loop. -/
def pairResultStat (f : ReconciliationStats → ℕ) (pair : FilePair) : ℕ :=
  match pair.result with
  | some r => f r.stats
  | none => 0

/-- `calculateBatchStats` (src/utils/batchReconciliation.ts): transaction
totals are summed over the successful pairs only; the overall match rate
divides the total matches by the total internal transactions, guarded
against zero. -/
def calculateBatchStats (filePairs : List FilePair) : BatchStats :=
  let successfulPairs :=
    filePairs.filter fun p => decide (p.status = .completed) && p.result.isSome
  let failedPairs := filePairs.filter fun p => decide (p.status = .failed)
  let totalTransactionsInternal :=
    (successfulPairs.map (pairResultStat (·.totalInternal))).sum
  let totalTransactionsProvider :=
    (successfulPairs.map (pairResultStat (·.totalProvider))).sum
  let totalMatched := (successfulPairs.map (pairResultStat (·.matched))).sum
  let totalInternalOnly := (successfulPairs.map (pairResultStat (·.internalOnly))).sum
  let totalProviderOnly := (successfulPairs.map (pairResultStat (·.providerOnly))).sum
  { totalFilePairs := filePairs.length
    successfulPairs := successfulPairs.length
    failedPairs := failedPairs.length
    totalTransactionsInternal := totalTransactionsInternal
    totalTransactionsProvider := totalTransactionsProvider
    totalMatched := totalMatched
    totalInternalOnly := totalInternalOnly
    totalProviderOnly := totalProviderOnly
    overallMatchRate :=
      if 0 < totalTransactionsInternal then
        (totalMatched : ℚ) / (totalTransactionsInternal : ℚ) * 100
      else 0 }

/-- `processBatchReconciliation` (src/utils/batchReconciliation.ts): every
pair is processed in order (a failing pair never aborts the loop), and the
aggregate statistics are computed over the processed pairs.  Progress
callbacks and the artificial delay are presentation concerns and are not
modelled. -/
def processBatchReconciliation (filePairs : List FilePair) : BatchReconciliationResult :=
  let processedPairs := filePairs.map processPair
  { filePairs := processedPairs
    aggregateStats := calculateBatchStats processedPairs }

/-- The transition relation of the per-pair state machine stated by the
spec: `pending → processing → (completed | failed)`, with no transition
out of a terminal state. -/
inductive StatusStep : PairStatus → PairStatus → Prop where
  | start : StatusStep .pending .processing
  | complete : StatusStep .processing .completed
  | fail : StatusStep .processing .failed

/-! ### Analytics aggregator (src/utils/analytics.ts) -/

/-- Insight severity. -/
inductive InsightType where
  | success
  | warning
  | error
  | info
deriving DecidableEq

/-- Insight impact level. -/
inductive Impact where
  | high
  | medium
  | low
deriving DecidableEq

/-- An analytics insight (src/types/analytics.ts).  The presentational
strings (description, value, recommendation) are `toFixed`-formatted text
and are not modelled; id, type, title and impact are kept. -/
structure AnalyticsInsight where
  id : String
  type : InsightType
  title : String
  impact : Impact
deriving DecidableEq

/-- The single-or-batch union consumed by the aggregator (the source
discriminates the two shapes by field probing). -/
inductive ReconResult where
  | single (r : ReconciliationResult)
  | batch (b : BatchReconciliationResult)
deriving DecidableEq

/-- A persisted historical record, reduced to the fields the insight
generator reads. -/
structure HistoricalRecord where
  id : String
  result : ReconResult
deriving DecidableEq

/-- The match rate the aggregator reads from a result: `matchRate` of a
single run, `overallMatchRate` of a batch. -/
def resultMatchRate : ReconResult → ℚ
  | .single r => r.stats.matchRate
  | .batch b => b.aggregateStats.overallMatchRate

/-- The total transaction volume the aggregator reads from a result. -/
def resultTotalTransactions : ReconResult → ℕ
  | .single r => r.stats.totalInternal + r.stats.totalProvider
  | .batch b =>
      b.aggregateStats.totalTransactionsInternal
        + b.aggregateStats.totalTransactionsProvider

/-- The historical-comparison insight of `generateInsights`: only emitted
with at least two historical records and a match-rate change of at least
five points against the second-to-last record. -/
def trendInsight (matchRate : ℚ) (historicalRecords : List HistoricalRecord) :
    List AnalyticsInsight :=
  if 2 ≤ historicalRecords.length then
    match historicalRecords[historicalRecords.length - 2]? with
    | some previousRecord =>
        let prevMatchRate := resultMatchRate previousRecord.result
        let matchRateChange := matchRate - prevMatchRate
        if 5 ≤ jsAbs matchRateChange then
          [⟨"match-rate-trend",
            if 0 < matchRateChange then .success else .warning,
            if 0 < matchRateChange then "Match Rate Improvement" else "Match Rate Decline",
            if 10 ≤ jsAbs matchRateChange then .high else .medium⟩]
        else []
    | none => []
  else []

/-- The batch-failure insight of `generateInsights`: only emitted for a
batch result with at least one failed pair. -/
def batchFailureInsight : ReconResult → List AnalyticsInsight
  | .single _ => []
  | .batch b =>
      if 0 < b.aggregateStats.failedPairs then
        let failureRate : ℚ :=
          (b.aggregateStats.failedPairs : ℚ) / (b.aggregateStats.totalFilePairs : ℚ) * 100
        [⟨"batch-failures", .error, "Batch Processing Failures",
          if 20 < failureRate then .high else .medium⟩]
      else []

/-- `generateInsights` (src/utils/analytics.ts): the match-rate insight
(thresholds 95 and 85), then the volume insight, the historical trend
insight and the batch-failure insight, pushed in source order.  The
function is pure: it only reads its inputs. -/
def generateInsights (currentResult : ReconResult)
    (historicalRecords : List HistoricalRecord) : List AnalyticsInsight :=
  let matchRate := resultMatchRate currentResult
  let rateInsight :=
    if 95 ≤ matchRate then
      [⟨"high-match-rate", .success, "Excellent Match Rate", .low⟩]
    else if 85 ≤ matchRate then
      [⟨"good-match-rate", .info, "Good Match Rate", .medium⟩]
    else
      [⟨"low-match-rate", .warning, "Low Match Rate Alert", .high⟩]
  let volumeInsight :=
    if 10000 < resultTotalTransactions currentResult then
      [⟨"high-volume", .info, "High Volume Processing", .medium⟩]
    else []
  rateInsight ++ volumeInsight
    ++ trendInsight matchRate historicalRecords
    ++ batchFailureInsight currentResult

/-- Whether an insight is the match-rate classification insight. -/
def isMatchRateInsight (i : AnalyticsInsight) : Bool :=
  i.id == "high-match-rate" || i.id == "good-match-rate" || i.id == "low-match-rate"

/-! ### Concrete sample data for witnesses and counterexamples -/

/-- Sample internal record with reference A. -/
def tm1 : Transaction := ⟨"A", none, some "completed", some "2024-01-01", none⟩

/-- Sample provider record with reference A, status differing in case
only. -/
def tm1b : Transaction := ⟨"A", none, some "Completed", some "2024-01-01", none⟩

/-- First of two records sharing reference D. -/
def tdupA : Transaction := ⟨"D", none, some "completed", none, none⟩

/-- Second of two records sharing reference D. -/
def tdupB : Transaction := ⟨"D", none, some "pending", none, none⟩

/-- Provider record with reference D. -/
def tdupP : Transaction := ⟨"D", none, some "completed", none, none⟩

/-- A well-formed raw parser row. -/
def rawOk : RawTransaction := ⟨some "A", none, some "completed", none, none⟩

/-- A raw parser row without a reference: processing it throws. -/
def rawBad : RawTransaction := ⟨none, none, none, none, none⟩

/-- A pair crafted to succeed. -/
def goodPair : FilePair :=
  ⟨"good", ⟨"internal.csv", [rawOk]⟩, ⟨"provider.csv", [rawOk]⟩, .pending, none, none, false⟩

/-- A pair crafted to fail. -/
def badPair : FilePair :=
  ⟨"bad", ⟨"broken.csv", [rawBad]⟩, ⟨"provider.csv", [rawOk]⟩, .pending, none, none, false⟩

/-- A sample single-run result whose match rate is 90. -/
def wRes90 : ReconResult := .single ⟨[], [], [], ⟨0, 0, 0, 0, 0, 90⟩⟩

/-! ### Basic lemmas about the JavaScript primitives and the map model -/

theorem jsAbs_eq_abs (q : ℚ) : jsAbs q = |q| := by
  unfold jsAbs
  rcases lt_or_le q 0 with h | h
  · rw [if_pos h, abs_of_neg h]
  · rw [if_neg (not_lt.mpr h), abs_of_nonneg h]

theorem mapGet_mapSet {α : Type} (m : List (String × α)) (k k' : String) (v : α) :
    mapGet (mapSet m k v) k' = if k = k' then some v else mapGet m k' := by
  induction m with
  | nil => simp [mapSet, mapGet]
  | cons e rest ih =>
    obtain ⟨k0, v0⟩ := e
    by_cases h : k0 = k
    · subst h
      by_cases hk : k0 = k'
      · subst hk
        simp [mapSet, mapGet]
      · simp [mapSet, mapGet, hk]
    · by_cases hk : k0 = k'
      · have hk' : ¬ k = k' := by
          rw [← hk]
          exact fun hh => h hh.symm
        have hk'' : ¬ k' = k := fun hh => hk' hh.symm
        simp [mapSet, h, mapGet, hk, hk', hk'']
      · simp [mapSet, h, mapGet, hk, ih]

theorem keys_mapSet {α : Type} (m : List (String × α)) (k : String) (v : α) :
    (mapSet m k v).map Prod.fst =
      if k ∈ m.map Prod.fst then m.map Prod.fst else m.map Prod.fst ++ [k] := by
  induction m with
  | nil => simp [mapSet]
  | cons e rest ih =>
    obtain ⟨k0, v0⟩ := e
    by_cases h : k0 = k
    · subst h
      simp [mapSet]
    · have h' : ¬ k = k0 := fun hh => h hh.symm
      by_cases hm : k ∈ rest.map Prod.fst
      · simp [mapSet, h, ih, hm, h']
      · simp [mapSet, h, ih, hm, h']

theorem mem_keys_mapSet {α : Type} (m : List (String × α)) (k k' : String) (v : α) :
    k' ∈ (mapSet m k v).map Prod.fst ↔ k' ∈ m.map Prod.fst ∨ k' = k := by
  rw [keys_mapSet]
  by_cases h : k ∈ m.map Prod.fst
  · simp only [if_pos h]
    constructor
    · exact Or.inl
    · rintro (hk | rfl)
      · exact hk
      · exact h
  · simp [if_neg h]

theorem nodupKeys_mapSet {α : Type} (m : List (String × α)) (k : String) (v : α)
    (h : (m.map Prod.fst).Nodup) : ((mapSet m k v).map Prod.fst).Nodup := by
  rw [keys_mapSet]
  by_cases hm : k ∈ m.map Prod.fst
  · simpa [hm]
  · simpa [hm, List.nodup_append] using h

theorem mapSet_of_not_mem_keys {α : Type} (m : List (String × α)) (k : String) (v : α)
    (h : k ∉ m.map Prod.fst) : mapSet m k v = m ++ [(k, v)] := by
  induction m with
  | nil => simp [mapSet]
  | cons e rest ih =>
    obtain ⟨k0, v0⟩ := e
    simp only [List.map_cons, List.mem_cons, not_or] at h
    simp [mapSet, Ne.symm h.1, ih h.2]

theorem mem_mapSet {α : Type} (m : List (String × α)) (k : String) (v : α) (e : String × α)
    (h : e ∈ mapSet m k v) : e ∈ m ∨ e = (k, v) := by
  induction m with
  | nil =>
    simp only [mapSet, List.mem_singleton] at h
    exact Or.inr h
  | cons e0 rest ih =>
    obtain ⟨k0, v0⟩ := e0
    by_cases h0 : k0 = k
    · simp only [mapSet, if_pos h0, List.mem_cons] at h
      rcases h with h | h
      · exact Or.inr h
      · exact Or.inl (List.mem_cons_of_mem _ h)
    · simp only [mapSet, if_neg h0, List.mem_cons] at h
      rcases h with h | h
      · exact Or.inl (by rw [h]; exact List.mem_cons_self _ _)
      · rcases ih h with h | h
        · exact Or.inl (List.mem_cons_of_mem _ h)
        · exact Or.inr h

theorem mapGet_eq_none_iff {α : Type} (m : List (String × α)) (k : String) :
    mapGet m k = none ↔ k ∉ m.map Prod.fst := by
  induction m with
  | nil => simp [mapGet]
  | cons e rest ih =>
    obtain ⟨k0, v0⟩ := e
    by_cases h : k0 = k
    · subst h
      simp [mapGet]
    · have h' : ¬ k = k0 := fun hh => h hh.symm
      simp [mapGet, h, ih, h']

theorem mapGet_mem {α : Type} (m : List (String × α)) (k : String) (v : α)
    (h : mapGet m k = some v) : (k, v) ∈ m := by
  induction m with
  | nil => simp [mapGet] at h
  | cons e rest ih =>
    obtain ⟨k0, v0⟩ := e
    by_cases h0 : k0 = k
    · subst h0
      simp [mapGet] at h
      rw [← h]
      exact List.mem_cons_self _ _
    · simp only [mapGet, if_neg h0] at h
      exact List.mem_cons_of_mem _ (ih h)

theorem mapGet_isSome_iff {α : Type} (m : List (String × α)) (k : String) :
    (mapGet m k).isSome = true ↔ k ∈ m.map Prod.fst := by
  rcases h : mapGet m k with _ | v
  · have hk := (mapGet_eq_none_iff m k).mp h
    simp [h, hk]
  · have : k ∈ m.map Prod.fst := List.mem_map_of_mem Prod.fst (mapGet_mem m k v h)
    simp [h, this]

theorem mapGet_some_of_mem {α : Type} (m : List (String × α)) (k : String) (v : α)
    (hnd : (m.map Prod.fst).Nodup) (h : (k, v) ∈ m) : mapGet m k = some v := by
  induction m with
  | nil => cases h
  | cons e rest ih =>
    obtain ⟨k0, v0⟩ := e
    simp only [List.map_cons, List.nodup_cons] at hnd
    rcases List.mem_cons.mp h with he | h
    · cases he
      simp [mapGet]
    · have hk : k0 ≠ k := by
        rintro rfl
        exact hnd.1 (List.mem_map_of_mem Prod.fst h)
      simp [mapGet, hk, ih hnd.2 h]

theorem mem_mapDelete {α : Type} (m : List (String × α)) (k : String) (e : String × α)
    (h : e ∈ mapDelete m k) : e ∈ m :=
  List.mem_of_mem_filter h

theorem keys_mapDelete {α : Type} (m : List (String × α)) (k : String) :
    (mapDelete m k).map Prod.fst = (m.map Prod.fst).filter (fun x => x != k) := by
  unfold mapDelete
  induction m with
  | nil => simp
  | cons e rest ih =>
    obtain ⟨k0, v0⟩ := e
    by_cases h : k0 = k
    · subst h
      simp [ih]
    · simp [List.filter_cons, h, ih]

theorem nodupKeys_mapDelete {α : Type} (m : List (String × α)) (k : String)
    (h : (m.map Prod.fst).Nodup) : ((mapDelete m k).map Prod.fst).Nodup := by
  rw [keys_mapDelete]
  exact h.filter _

theorem mapGet_mapDelete_ne {α : Type} (m : List (String × α)) (k k' : String)
    (h : k' ≠ k) : mapGet (mapDelete m k) k' = mapGet m k' := by
  unfold mapDelete
  induction m with
  | nil => simp
  | cons e rest ih =>
    obtain ⟨k0, v0⟩ := e
    by_cases h0 : k0 = k
    · subst h0
      have h' : ¬ k0 = k' := fun hh => h hh.symm
      simp [List.filter_cons, mapGet, h', ih]
    · by_cases h1 : k0 = k'
      · subst h1
        simp [List.filter_cons, h0, mapGet]
      · simp [List.filter_cons, h0, mapGet, h1, ih]

theorem perm_cons_mapDelete {α : Type} (m : List (String × α)) (k : String) (v : α)
    (hnd : (m.map Prod.fst).Nodup) (h : mapGet m k = some v) :
    m.Perm ((k, v) :: mapDelete m k) := by
  unfold mapDelete
  induction m with
  | nil => simp [mapGet] at h
  | cons e rest ih =>
    obtain ⟨k0, v0⟩ := e
    simp only [List.map_cons, List.nodup_cons] at hnd
    by_cases h0 : k0 = k
    · subst h0
      simp [mapGet] at h
      rw [← h]
      have hrest : rest.filter (fun e => e.1 != k0) = rest := by
        apply List.filter_eq_self.mpr
        intro e he
        have he1 : e.1 ≠ k0 := by
          rintro rfl
          exact hnd.1 (List.mem_map_of_mem Prod.fst he)
        simpa using he1
      simp [List.filter_cons, hrest]
    · simp only [mapGet, if_neg h0] at h
      have hperm := ih hnd.2 h
      have hfc : List.filter (fun e => e.1 != k) ((k0, v0) :: rest)
          = (k0, v0) :: List.filter (fun e => e.1 != k) rest := by
        simp [List.filter_cons, h0]
      rw [hfc]
      exact (List.Perm.cons (k0, v0) hperm).trans (List.Perm.swap _ _ _)

theorem length_mapDelete_of_some {α : Type} (m : List (String × α)) (k : String) (v : α)
    (hnd : (m.map Prod.fst).Nodup) (h : mapGet m k = some v) :
    (mapDelete m k).length + 1 = m.length := by
  have := (perm_cons_mapDelete m k v hnd h).length_eq
  simpa using this.symm

/-! ### Lemmas about first-occurrence key lists -/

theorem length_filter_lt_of_mem {α : Type} (l : List α) (p : α → Bool) (a : α)
    (ha : a ∈ l) (hpa : p a = false) : (l.filter p).length < l.length := by
  induction l with
  | nil => cases ha
  | cons x xs ih =>
    rcases List.mem_cons.mp ha with h | ha
    · have hpx : p x = false := by rw [h] at hpa; exact hpa
      have hle := List.length_filter_le p xs
      simp only [List.filter_cons, hpx, Bool.false_eq_true, if_false, List.length_cons]
      omega
    · by_cases hx : p x = true
      · simp only [List.filter_cons, hx, if_true, List.length_cons]
        exact Nat.succ_lt_succ (ih ha)
      · have hx' : p x = false := by simpa using hx
        simp only [List.filter_cons, hx', Bool.false_eq_true, if_false, List.length_cons]
        have := ih ha
        omega

theorem mem_distinctKeys (l : List String) (a : String) : a ∈ distinctKeys l ↔ a ∈ l := by
  induction l with
  | nil => simp [distinctKeys]
  | cons k rest ih =>
    simp only [distinctKeys, List.mem_cons, List.mem_filter]
    constructor
    · rintro (h | ⟨h, _⟩)
      · exact Or.inl h
      · exact Or.inr (ih.mp h)
    · rintro (h | h)
      · exact Or.inl h
      · by_cases hk : a = k
        · exact Or.inl hk
        · exact Or.inr ⟨ih.mpr h, by simpa using hk⟩

theorem nodup_distinctKeys (l : List String) : (distinctKeys l).Nodup := by
  induction l with
  | nil => simp [distinctKeys]
  | cons k rest ih =>
    simp only [distinctKeys, List.nodup_cons]
    refine ⟨?_, ih.filter _⟩
    intro hmem
    have := (List.mem_filter.mp hmem).2
    simp at this

theorem length_distinctKeys_le (l : List String) : (distinctKeys l).length ≤ l.length := by
  induction l with
  | nil => simp [distinctKeys]
  | cons k rest ih =>
    simp only [distinctKeys, List.length_cons]
    have := List.length_filter_le (fun x => x != k) (distinctKeys rest)
    omega

theorem distinctKeys_eq_self (l : List String) (h : l.Nodup) : distinctKeys l = l := by
  induction l with
  | nil => rfl
  | cons k rest ih =>
    simp only [List.nodup_cons] at h
    have hfilter : (distinctKeys rest).filter (fun x => x != k) = distinctKeys rest := by
      apply List.filter_eq_self.mpr
      intro a ha
      have hmem : a ∈ rest := (mem_distinctKeys rest a).mp ha
      have hne : a ≠ k := fun hh => h.1 (hh ▸ hmem)
      simpa using hne
    show k :: (distinctKeys rest).filter (fun x => x != k) = k :: rest
    rw [hfilter, ih h.2]

theorem length_distinctKeys_lt (l : List String) (h : ¬ l.Nodup) :
    (distinctKeys l).length < l.length := by
  induction l with
  | nil => exact absurd List.nodup_nil h
  | cons k rest ih =>
    by_cases hk : k ∈ rest
    · have hkd : k ∈ distinctKeys rest := (mem_distinctKeys rest k).mpr hk
      have hlt : ((distinctKeys rest).filter (fun x => x != k)).length
          < (distinctKeys rest).length :=
        length_filter_lt_of_mem _ _ k hkd (by simp)
      have hle := length_distinctKeys_le rest
      simp only [distinctKeys, List.length_cons]
      omega
    · have hnd : ¬ rest.Nodup := by
        intro hnd
        exact h (List.nodup_cons.mpr ⟨hk, hnd⟩)
      have hlt := ih hnd
      have := List.length_filter_le (fun x => x != k) (distinctKeys rest)
      simp only [distinctKeys, List.length_cons]
      omega

/-! ### Lemmas about the lookup tables built by the matcher -/

theorem keys_foldl_mapSet (ts : List Transaction) (acc : List (String × Transaction)) :
    (ts.foldl (fun m t => mapSet m (refKey t) t) acc).map Prod.fst
      = acc.map Prod.fst
        ++ (distinctKeys (ts.map refKey)).filter
            (fun k => !decide (k ∈ acc.map Prod.fst)) := by
  induction ts generalizing acc with
  | nil => simp [distinctKeys]
  | cons t rest ih =>
    simp only [List.foldl_cons, List.map_cons, distinctKeys]
    rw [ih]
    by_cases hmem : refKey t ∈ acc.map Prod.fst
    · simp only [keys_mapSet, hmem, if_true, List.filter_cons, decide_eq_true hmem,
        Bool.not_true, Bool.false_eq_true, if_false]
      congr 1
      rw [List.filter_filter]
      apply List.filter_congr
      intro x hx
      by_cases hxa : x ∈ acc.map Prod.fst
      · simp [hxa]
      · have hne : x ≠ refKey t := fun hh => hxa (hh ▸ hmem)
        simp [hxa, hne]
    · simp only [keys_mapSet, hmem, if_false, List.filter_cons,
        decide_eq_false hmem, Bool.not_false, if_true]
      rw [List.append_assoc, List.singleton_append]
      congr 2
      rw [List.filter_filter]
      apply List.filter_congr
      intro x hx
      by_cases hxk : x = refKey t
      · subst hxk
        simp
      · by_cases hxa : x ∈ acc.map Prod.fst
        · simp [hxa, hxk]
        · simp [hxa, hxk]

theorem buildRefMap_keys (ts : List Transaction) :
    (buildRefMap ts).map Prod.fst = distinctKeys (ts.map refKey) := by
  unfold buildRefMap
  rw [keys_foldl_mapSet]
  simp

theorem nodupKeys_buildRefMap (ts : List Transaction) :
    ((buildRefMap ts).map Prod.fst).Nodup := by
  rw [buildRefMap_keys]
  exact nodup_distinctKeys _

theorem length_buildRefMap (ts : List Transaction) :
    (buildRefMap ts).length = (distinctKeys (ts.map refKey)).length := by
  have := buildRefMap_keys ts
  have hlen : ((buildRefMap ts).map Prod.fst).length = (buildRefMap ts).length :=
    List.length_map _ _
  rw [← hlen, this]

theorem mem_foldl_mapSet (ts : List Transaction) (acc : List (String × Transaction))
    (e : String × Transaction)
    (h : e ∈ ts.foldl (fun m t => mapSet m (refKey t) t) acc) :
    e ∈ acc ∨ (e.1 = refKey e.2 ∧ e.2 ∈ ts) := by
  induction ts generalizing acc with
  | nil => exact Or.inl h
  | cons t rest ih =>
    simp only [List.foldl_cons] at h
    rcases ih (mapSet acc (refKey t) t) h with h | h
    · rcases mem_mapSet acc (refKey t) t e h with h | h
      · exact Or.inl h
      · subst h
        exact Or.inr ⟨rfl, List.mem_cons_self _ _⟩
    · exact Or.inr ⟨h.1, List.mem_cons_of_mem _ h.2⟩

theorem mem_buildRefMap (ts : List Transaction) (e : String × Transaction)
    (h : e ∈ buildRefMap ts) : e.1 = refKey e.2 ∧ e.2 ∈ ts := by
  rcases mem_foldl_mapSet ts [] e h with h | h
  · cases h
  · exact h

theorem foldl_mapSet_of_nodup (ts : List Transaction) (acc : List (String × Transaction))
    (hnd : (ts.map refKey).Nodup)
    (hdisj : ∀ t ∈ ts, refKey t ∉ acc.map Prod.fst) :
    ts.foldl (fun m t => mapSet m (refKey t) t) acc = acc ++ ts.map (fun t => (refKey t, t)) := by
  induction ts generalizing acc with
  | nil => simp
  | cons t rest ih =>
    simp only [List.map_cons, List.nodup_cons] at hnd
    simp only [List.foldl_cons]
    rw [mapSet_of_not_mem_keys acc (refKey t) t (hdisj t (List.mem_cons_self _ _))]
    rw [ih (acc ++ [(refKey t, t)]) hnd.2]
    · simp
    · intro u hu
      simp only [List.map_append, List.mem_append]
      push_neg
      refine ⟨hdisj u (List.mem_cons_of_mem _ hu), ?_⟩
      simp only [List.map_cons, List.map_nil, List.mem_singleton]
      intro hh
      exact hnd.1 (hh ▸ List.mem_map_of_mem refKey hu)

theorem buildRefMap_of_nodup (ts : List Transaction) (hnd : (ts.map refKey).Nodup) :
    buildRefMap ts = ts.map fun t => (refKey t, t) := by
  unfold buildRefMap
  rw [foldl_mapSet_of_nodup ts [] hnd (by simp)]
  simp

theorem mapGet_foldl_mapSet (ts : List Transaction) (acc : List (String × Transaction))
    (k : String) :
    mapGet (ts.foldl (fun m t => mapSet m (refKey t) t) acc) k
      = ts.foldl (fun a t => if refKey t = k then some t else a) (mapGet acc k) := by
  induction ts generalizing acc with
  | nil => rfl
  | cons t rest ih =>
    simp only [List.foldl_cons]
    rw [ih]
    congr 1
    rw [mapGet_mapSet]

theorem mapGet_buildRefMap (ts : List Transaction) (k : String) :
    mapGet (buildRefMap ts) k = lastWithReference ts k := by
  unfold buildRefMap lastWithReference
  rw [mapGet_foldl_mapSet]
  rfl

/-! ### Lemmas about the match loop -/

theorem reconLoop_cons_some (ref : String) (itx : Transaction)
    (rest pmap : List (String × Transaction)) (ptx : Transaction)
    (h : mapGet pmap ref = some ptx) :
    reconLoop ((ref, itx) :: rest) pmap =
      (⟨itx, ptx, findFieldMismatches itx ptx⟩
          :: (reconLoop rest (mapDelete pmap ref)).1,
        (reconLoop rest (mapDelete pmap ref)).2.1,
        (reconLoop rest (mapDelete pmap ref)).2.2) := by
  simp [reconLoop, h]

theorem reconLoop_cons_none (ref : String) (itx : Transaction)
    (rest pmap : List (String × Transaction)) (h : mapGet pmap ref = none) :
    reconLoop ((ref, itx) :: rest) pmap =
      ((reconLoop rest pmap).1,
        itx :: (reconLoop rest pmap).2.1,
        (reconLoop rest pmap).2.2) := by
  simp [reconLoop, h]

theorem reconLoop_nil_pmap (imap : List (String × Transaction)) :
    reconLoop imap [] = ([], imap.map Prod.snd, []) := by
  induction imap with
  | nil => rfl
  | cons e rest ih =>
    obtain ⟨ref, itx⟩ := e
    rw [reconLoop_cons_none ref itx rest [] rfl, ih]
    simp

theorem reconLoop_matched_mismatches (imap : List (String × Transaction)) :
    ∀ pmap m, m ∈ (reconLoop imap pmap).1 →
      m.mismatches = findFieldMismatches m.internal m.provider := by
  induction imap with
  | nil =>
    intro pmap m h
    simp [reconLoop] at h
  | cons e rest ih =>
    intro pmap m h
    obtain ⟨ref, itx⟩ := e
    rcases hg : mapGet pmap ref with _ | ptx
    · rw [reconLoop_cons_none ref itx rest pmap hg] at h
      exact ih pmap m h
    · rw [reconLoop_cons_some ref itx rest pmap ptx hg] at h
      rcases List.mem_cons.mp h with h | h
      · rw [h]
      · exact ih (mapDelete pmap ref) m h

theorem reconLoop_matched_mem (imap : List (String × Transaction)) :
    ∀ pmap m, m ∈ (reconLoop imap pmap).1 →
      ∃ k, (k, m.internal) ∈ imap ∧ (k, m.provider) ∈ pmap := by
  induction imap with
  | nil =>
    intro pmap m h
    simp [reconLoop] at h
  | cons e rest ih =>
    intro pmap m h
    obtain ⟨ref, itx⟩ := e
    rcases hg : mapGet pmap ref with _ | ptx
    · rw [reconLoop_cons_none ref itx rest pmap hg] at h
      obtain ⟨k, hk1, hk2⟩ := ih pmap m h
      exact ⟨k, List.mem_cons_of_mem _ hk1, hk2⟩
    · rw [reconLoop_cons_some ref itx rest pmap ptx hg] at h
      rcases List.mem_cons.mp h with h | h
      · refine ⟨ref, ?_, ?_⟩
        · rw [h]
          exact List.mem_cons_self _ _
        · rw [h]
          exact mapGet_mem pmap ref ptx hg
      · obtain ⟨k, hk1, hk2⟩ := ih (mapDelete pmap ref) m h
        exact ⟨k, List.mem_cons_of_mem _ hk1, mem_mapDelete pmap ref _ hk2⟩

theorem reconLoop_internalOnly_mem (imap : List (String × Transaction)) :
    ∀ pmap t, t ∈ (reconLoop imap pmap).2.1 → ∃ k, (k, t) ∈ imap := by
  induction imap with
  | nil =>
    intro pmap t h
    simp [reconLoop] at h
  | cons e rest ih =>
    intro pmap t h
    obtain ⟨ref, itx⟩ := e
    rcases hg : mapGet pmap ref with _ | ptx
    · rw [reconLoop_cons_none ref itx rest pmap hg] at h
      rcases List.mem_cons.mp h with h | h
      · exact ⟨ref, by rw [h]; exact List.mem_cons_self _ _⟩
      · obtain ⟨k, hk⟩ := ih pmap t h
        exact ⟨k, List.mem_cons_of_mem _ hk⟩
    · rw [reconLoop_cons_some ref itx rest pmap ptx hg] at h
      obtain ⟨k, hk⟩ := ih (mapDelete pmap ref) t h
      exact ⟨k, List.mem_cons_of_mem _ hk⟩

theorem reconLoop_remaining_mem (imap : List (String × Transaction)) :
    ∀ pmap e, e ∈ (reconLoop imap pmap).2.2 → e ∈ pmap := by
  induction imap with
  | nil =>
    intro pmap e h
    simpa [reconLoop] using h
  | cons e0 rest ih =>
    intro pmap e h
    obtain ⟨ref, itx⟩ := e0
    rcases hg : mapGet pmap ref with _ | ptx
    · rw [reconLoop_cons_none ref itx rest pmap hg] at h
      exact ih pmap e h
    · rw [reconLoop_cons_some ref itx rest pmap ptx hg] at h
      exact mem_mapDelete pmap ref e (ih (mapDelete pmap ref) e h)

theorem reconLoop_internal_perm (imap : List (String × Transaction)) :
    ∀ pmap,
      ((reconLoop imap pmap).1.map (fun m => m.internal)
          ++ (reconLoop imap pmap).2.1).Perm (imap.map Prod.snd) := by
  induction imap with
  | nil =>
    intro pmap
    simp [reconLoop]
  | cons e rest ih =>
    intro pmap
    obtain ⟨ref, itx⟩ := e
    rcases hg : mapGet pmap ref with _ | ptx
    · rw [reconLoop_cons_none ref itx rest pmap hg]
      simp only [List.map_cons]
      refine List.Perm.trans ?_ ((ih pmap).cons itx)
      exact List.perm_middle
    · rw [reconLoop_cons_some ref itx rest pmap ptx hg]
      simp only [List.map_cons, List.cons_append]
      exact (ih (mapDelete pmap ref)).cons itx

theorem reconLoop_provider_perm (imap : List (String × Transaction)) :
    ∀ pmap, (pmap.map Prod.fst).Nodup →
      ((reconLoop imap pmap).1.map (fun m => m.provider)
          ++ (reconLoop imap pmap).2.2.map Prod.snd).Perm (pmap.map Prod.snd) := by
  induction imap with
  | nil =>
    intro pmap _
    simp [reconLoop]
  | cons e rest ih =>
    intro pmap hnd
    obtain ⟨ref, itx⟩ := e
    rcases hg : mapGet pmap ref with _ | ptx
    · rw [reconLoop_cons_none ref itx rest pmap hg]
      exact ih pmap hnd
    · rw [reconLoop_cons_some ref itx rest pmap ptx hg]
      simp only [List.map_cons, List.cons_append]
      have hrec := ih (mapDelete pmap ref) (nodupKeys_mapDelete pmap ref hnd)
      have hperm := (perm_cons_mapDelete pmap ref ptx hnd hg).map Prod.snd
      exact (hrec.cons ptx).trans hperm.symm

theorem reconLoop_length_internal (imap : List (String × Transaction)) :
    ∀ pmap,
      (reconLoop imap pmap).1.length + (reconLoop imap pmap).2.1.length
        = imap.length := by
  induction imap with
  | nil =>
    intro pmap
    simp [reconLoop]
  | cons e rest ih =>
    intro pmap
    obtain ⟨ref, itx⟩ := e
    rcases hg : mapGet pmap ref with _ | ptx
    · rw [reconLoop_cons_none ref itx rest pmap hg]
      have := ih pmap
      simp only [List.length_cons]
      omega
    · rw [reconLoop_cons_some ref itx rest pmap ptx hg]
      have := ih (mapDelete pmap ref)
      simp only [List.length_cons]
      omega

theorem reconLoop_length_provider (imap : List (String × Transaction)) :
    ∀ pmap, (pmap.map Prod.fst).Nodup →
      (reconLoop imap pmap).1.length + (reconLoop imap pmap).2.2.length
        = pmap.length := by
  induction imap with
  | nil =>
    intro pmap _
    simp [reconLoop]
  | cons e rest ih =>
    intro pmap hnd
    obtain ⟨ref, itx⟩ := e
    rcases hg : mapGet pmap ref with _ | ptx
    · rw [reconLoop_cons_none ref itx rest pmap hg]
      exact ih pmap hnd
    · rw [reconLoop_cons_some ref itx rest pmap ptx hg]
      have hrec := ih (mapDelete pmap ref) (nodupKeys_mapDelete pmap ref hnd)
      have hlen := length_mapDelete_of_some pmap ref ptx hnd hg
      simp only [List.length_cons]
      omega

/-- Full characterisation of the match loop over an internal map with
distinct keys: matches are the internal entries whose key is found in the
provider map, internal-only records are the rest, and the remaining
provider entries are those whose key never occurs in the internal map.
All three components keep their insertion order. -/
theorem reconLoop_eq (imap : List (String × Transaction)) :
    ∀ pmap, (imap.map Prod.fst).Nodup →
      reconLoop imap pmap =
        (imap.filterMap (fun e => (mapGet pmap e.1).map
            (fun q => TransactionMatch.mk e.2 q (findFieldMismatches e.2 q))),
          (imap.filter (fun e => (mapGet pmap e.1).isNone)).map Prod.snd,
          pmap.filter (fun e => !decide (e.1 ∈ imap.map Prod.fst))) := by
  induction imap with
  | nil =>
    intro pmap _
    simp [reconLoop]
  | cons e0 rest ih =>
    intro pmap hnd
    obtain ⟨ref, itx⟩ := e0
    simp only [List.map_cons, List.nodup_cons] at hnd
    have hrefrest : ∀ x : String × Transaction, x ∈ rest → ¬ x.1 = ref := by
      intro x hx hh
      exact hnd.1 (hh ▸ List.mem_map_of_mem Prod.fst hx)
    rcases hg : mapGet pmap ref with _ | ptx
    · rw [reconLoop_cons_none ref itx rest pmap hg, ih pmap hnd.2]
      have hrefnotin : ref ∉ pmap.map Prod.fst := (mapGet_eq_none_iff pmap ref).mp hg
      refine congrArg₂ Prod.mk ?_ (congrArg₂ Prod.mk ?_ ?_)
      · rw [List.filterMap_cons]
        simp [hg]
      · rw [List.filter_cons]
        simp [hg]
      · apply List.filter_congr
        intro x hx
        have hxne : ¬ x.1 = ref := fun hh =>
          hrefnotin (hh ▸ List.mem_map_of_mem Prod.fst hx)
        simp [hxne]
    · rw [reconLoop_cons_some ref itx rest pmap ptx hg,
        ih (mapDelete pmap ref) hnd.2]
      refine congrArg₂ Prod.mk ?_ (congrArg₂ Prod.mk ?_ ?_)
      · rw [List.filterMap_cons]
        simp only [hg, Option.map_some']
        congr 1
        apply List.filterMap_congr
        intro x hx
        rw [mapGet_mapDelete_ne pmap ref x.1 (hrefrest x hx)]
      · rw [List.filter_cons]
        simp only [hg, Option.isNone_some, Bool.false_eq_true, if_false]
        congr 1
        apply List.filter_congr
        intro x hx
        rw [mapGet_mapDelete_ne pmap ref x.1 (hrefrest x hx)]
      · show (List.filter _ (List.filter _ pmap)) = _
        rw [List.filter_filter]
        apply List.filter_congr
        intro x hx
        by_cases h1 : x.1 = ref
        · simp [h1]
        · by_cases h2 : x.1 ∈ rest.map Prod.fst
          · simp [h1, h2]
          · simp [h1, h2]

/-! ### Definitional projections of the matcher result -/

theorem recon_matched_def (i p : List Transaction) :
    (reconcileTransactions i p).matched = (reconLoop (buildRefMap i) (buildRefMap p)).1 :=
  rfl

theorem recon_internalOnly_def (i p : List Transaction) :
    (reconcileTransactions i p).internalOnly
      = (reconLoop (buildRefMap i) (buildRefMap p)).2.1 :=
  rfl

theorem recon_providerOnly_def (i p : List Transaction) :
    (reconcileTransactions i p).providerOnly
      = (reconLoop (buildRefMap i) (buildRefMap p)).2.2.map Prod.snd :=
  rfl

theorem recon_stats_totalInternal_def (i p : List Transaction) :
    (reconcileTransactions i p).stats.totalInternal = i.length :=
  rfl

theorem recon_stats_totalProvider_def (i p : List Transaction) :
    (reconcileTransactions i p).stats.totalProvider = p.length :=
  rfl

theorem recon_stats_matched_def (i p : List Transaction) :
    (reconcileTransactions i p).stats.matched
      = (reconcileTransactions i p).matched.length :=
  rfl

theorem recon_stats_internalOnly_def (i p : List Transaction) :
    (reconcileTransactions i p).stats.internalOnly
      = (reconcileTransactions i p).internalOnly.length :=
  rfl

theorem recon_stats_providerOnly_def (i p : List Transaction) :
    (reconcileTransactions i p).stats.providerOnly
      = (reconcileTransactions i p).providerOnly.length :=
  rfl

theorem recon_stats_matchRate_def (i p : List Transaction) :
    (reconcileTransactions i p).stats.matchRate
      = if 0 < i.length then
          ((reconcileTransactions i p).matched.length : ℚ) / (i.length : ℚ) * 100
        else 0 :=
  rfl

theorem matched_length_le (i p : List Transaction) :
    (reconcileTransactions i p).matched.length ≤ i.length := by
  rw [recon_matched_def]
  have h1 := reconLoop_length_internal (buildRefMap i) (buildRefMap p)
  have h2 := length_buildRefMap i
  have h3 := length_distinctKeys_le (i.map refKey)
  have h4 : (i.map refKey).length = i.length := List.length_map _ _
  omega

/-! ### C1 — completeness of the partition -/

/-- **C1** (counterexample): with two internal records sharing a trimmed
reference and an empty provider list, the first record appears neither as
the internal side of a match nor in internalOnly — it is dropped, so the
claimed partition of every input record fails. -/
theorem c1_counterexample :
    tdupA ∉ (reconcileTransactions [tdupA, tdupB] []).matched.map (fun m => m.internal)
    ∧ tdupA ∉ (reconcileTransactions [tdupA, tdupB] []).internalOnly := by
  decide

/-- **C1** (amended): when the trimmed references are pairwise distinct
within each input list, every internal record appears exactly once across
the internal sides of matched plus internalOnly, and every provider
record appears exactly once across the provider sides of matched plus
providerOnly: the two concatenations are permutations of the inputs, so
no record is dropped or duplicated. -/
theorem c1_completeness (internalData providerData : List Transaction)
    (hi : (internalData.map refKey).Nodup) (hp : (providerData.map refKey).Nodup) :
    ((reconcileTransactions internalData providerData).matched.map (fun m => m.internal)
        ++ (reconcileTransactions internalData providerData).internalOnly).Perm
      internalData
    ∧ ((reconcileTransactions internalData providerData).matched.map (fun m => m.provider)
        ++ (reconcileTransactions internalData providerData).providerOnly).Perm
      providerData := by
  have hcomp : (Prod.snd ∘ fun t : Transaction => (refKey t, t)) = id := rfl
  have hsnd_i : (buildRefMap internalData).map Prod.snd = internalData := by
    rw [buildRefMap_of_nodup internalData hi, List.map_map, hcomp, List.map_id]
  have hsnd_p : (buildRefMap providerData).map Prod.snd = providerData := by
    rw [buildRefMap_of_nodup providerData hp, List.map_map, hcomp, List.map_id]
  constructor
  · rw [recon_matched_def, recon_internalOnly_def]
    have h := reconLoop_internal_perm (buildRefMap internalData) (buildRefMap providerData)
    rw [hsnd_i] at h
    exact h
  · rw [recon_matched_def, recon_providerOnly_def]
    have h := reconLoop_provider_perm (buildRefMap internalData) (buildRefMap providerData)
      (nodupKeys_buildRefMap providerData)
    rw [hsnd_p] at h
    exact h

/-- Witness for C1 at a concrete matched pair of singleton inputs. -/
theorem c1_witness :
    (((reconcileTransactions [tm1] [tm1b]).matched.map (fun m => m.internal)
        ++ (reconcileTransactions [tm1] [tm1b]).internalOnly).Perm [tm1])
    ∧ (((reconcileTransactions [tm1] [tm1b]).matched.map (fun m => m.provider)
        ++ (reconcileTransactions [tm1] [tm1b]).providerOnly).Perm [tm1b]) :=
  c1_completeness [tm1] [tm1b] (by decide) (by decide)

/-! ### C3 — match-rate denominator is the raw internal input size -/

/-- **C3**: the stats report the raw internal input length as
totalInternal, the match rate is zero for an empty internal input (no
division-by-zero fault), and otherwise equals matched count divided by
the raw internal input length times 100 — also when duplicate references
shrink the lookup table. -/
theorem c3_match_rate_denominator (internalData providerData : List Transaction) :
    (reconcileTransactions internalData providerData).stats.totalInternal
        = internalData.length
    ∧ (internalData = [] →
        (reconcileTransactions internalData providerData).stats.matchRate = 0)
    ∧ (internalData ≠ [] →
        (reconcileTransactions internalData providerData).stats.matchRate
          = ((reconcileTransactions internalData providerData).matched.length : ℚ)
              / (internalData.length : ℚ) * 100) := by
  refine ⟨rfl, ?_, ?_⟩
  · intro h
    subst h
    rw [recon_stats_matchRate_def]
    simp
  · intro h
    have hpos : 0 < internalData.length := List.length_pos.mpr h
    rw [recon_stats_matchRate_def, if_pos hpos]

/-- Witness for C3 on a duplicate-reference input: two raw internal rows,
one distinct reference, one match — the rate divides by 2, not 1. -/
theorem c3_witness :
    (reconcileTransactions [tdupA, tdupB] [tdupP]).stats.matchRate
      = ((reconcileTransactions [tdupA, tdupB] [tdupP]).matched.length : ℚ)
          / (([tdupA, tdupB] : List Transaction).length : ℚ) * 100
    ∧ (reconcileTransactions [tdupA, tdupB] [tdupP]).matched.length = 1
    ∧ (reconcileTransactions [tdupA, tdupB] [tdupP]).stats.totalInternal = 2 :=
  ⟨(c3_match_rate_denominator [tdupA, tdupB] [tdupP]).2.2 (by decide),
    by decide, by decide⟩

/-! ### C6 — match-rate bounds -/

/-- **C6** (counterexample): with duplicate internal references and an
empty provider list, not every internal record is placed in internalOnly:
the first of the two duplicate records is dropped. -/
theorem c6_counterexample :
    (reconcileTransactions [tdupA, tdupB] []).internalOnly = [tdupB]
    ∧ ¬ tdupA = tdupB
    ∧ tdupA ∉ (reconcileTransactions [tdupA, tdupB] []).internalOnly := by
  decide

/-- **C6** (amended): the match rate is always between 0 and 100, it is 0
for an empty internal list, and for an empty provider list it is 0 with
no matches and — for inputs whose trimmed references are distinct — with
every internal record placed in internalOnly.  (With duplicate
references only the retained record per reference lands in internalOnly,
see c6_counterexample.) -/
theorem c6_match_rate_bounds (internalData providerData : List Transaction) :
    (0 ≤ (reconcileTransactions internalData providerData).stats.matchRate
      ∧ (reconcileTransactions internalData providerData).stats.matchRate ≤ 100)
    ∧ (internalData = [] →
        (reconcileTransactions internalData providerData).stats.matchRate = 0)
    ∧ (providerData = [] →
        (reconcileTransactions internalData providerData).stats.matchRate = 0
        ∧ (reconcileTransactions internalData providerData).matched = []
        ∧ ((internalData.map refKey).Nodup →
            (reconcileTransactions internalData providerData).internalOnly
              = internalData)) := by
  refine ⟨?_, ?_, ?_⟩
  · rw [recon_stats_matchRate_def]
    by_cases hpos : 0 < internalData.length
    · rw [if_pos hpos]
      have hle : ((reconcileTransactions internalData providerData).matched.length : ℚ)
          ≤ (internalData.length : ℚ) :=
        Nat.cast_le.mpr (matched_length_le internalData providerData)
      have hnpos : (0 : ℚ) < (internalData.length : ℚ) := by exact_mod_cast hpos
      constructor
      · positivity
      · calc ((reconcileTransactions internalData providerData).matched.length : ℚ)
              / (internalData.length : ℚ) * 100
            ≤ 1 * 100 :=
              mul_le_mul_of_nonneg_right ((div_le_one hnpos).mpr hle) (by norm_num)
          _ = 100 := one_mul _
    · rw [if_neg hpos]
      norm_num
  · intro h
    subst h
    rw [recon_stats_matchRate_def]
    simp
  · intro h
    subst h
    have hmatched : (reconcileTransactions internalData []).matched = [] := by
      rw [recon_matched_def]
      show (reconLoop (buildRefMap internalData) []).1 = []
      rw [reconLoop_nil_pmap]
    refine ⟨?_, hmatched, ?_⟩
    · rw [recon_stats_matchRate_def, hmatched]
      simp
    · intro hnd
      rw [recon_internalOnly_def]
      show (reconLoop (buildRefMap internalData) []).2.1 = internalData
      rw [reconLoop_nil_pmap]
      rw [buildRefMap_of_nodup internalData hnd, List.map_map]
      have hcomp : (Prod.snd ∘ fun t : Transaction => (refKey t, t)) = id := rfl
      rw [hcomp, List.map_id]

/-- Witness for C6: concrete empty-internal and empty-provider runs. -/
theorem c6_witness :
    (reconcileTransactions ([] : List Transaction) [tm1b]).stats.matchRate = 0
    ∧ (reconcileTransactions [tm1] []).stats.matchRate = 0
    ∧ (reconcileTransactions [tm1] []).matched = []
    ∧ (reconcileTransactions [tm1] []).internalOnly = [tm1] := by
  have h1 := c6_match_rate_bounds [] [tm1b]
  have h2 := c6_match_rate_bounds [tm1] []
  exact ⟨h1.2.1 rfl, (h2.2.2 rfl).1, (h2.2.2 rfl).2.1, (h2.2.2 rfl).2.2 (by decide)⟩

/-! ### C10 — stats / bucket consistency -/

/-- **C10**: the stats counts equal the lengths of the corresponding
result lists, matched plus internalOnly counts the distinct trimmed
internal references, matched plus providerOnly counts the distinct
trimmed provider references, and with duplicate internal references
matched plus internalOnly is strictly below totalInternal. -/
theorem c10_stats_consistency (internalData providerData : List Transaction) :
    (reconcileTransactions internalData providerData).stats.matched
        = (reconcileTransactions internalData providerData).matched.length
    ∧ (reconcileTransactions internalData providerData).stats.internalOnly
        = (reconcileTransactions internalData providerData).internalOnly.length
    ∧ (reconcileTransactions internalData providerData).stats.providerOnly
        = (reconcileTransactions internalData providerData).providerOnly.length
    ∧ (reconcileTransactions internalData providerData).stats.matched
          + (reconcileTransactions internalData providerData).stats.internalOnly
        = (distinctKeys (internalData.map refKey)).length
    ∧ (reconcileTransactions internalData providerData).stats.matched
          + (reconcileTransactions internalData providerData).stats.providerOnly
        = (distinctKeys (providerData.map refKey)).length
    ∧ (¬ (internalData.map refKey).Nodup →
        (reconcileTransactions internalData providerData).stats.matched
            + (reconcileTransactions internalData providerData).stats.internalOnly
          < (reconcileTransactions internalData providerData).stats.totalInternal) := by
  have h4 : (reconcileTransactions internalData providerData).stats.matched
        + (reconcileTransactions internalData providerData).stats.internalOnly
      = (distinctKeys (internalData.map refKey)).length := by
    rw [recon_stats_matched_def, recon_stats_internalOnly_def,
      recon_matched_def, recon_internalOnly_def]
    rw [reconLoop_length_internal (buildRefMap internalData) (buildRefMap providerData)]
    exact length_buildRefMap internalData
  have h5 : (reconcileTransactions internalData providerData).stats.matched
        + (reconcileTransactions internalData providerData).stats.providerOnly
      = (distinctKeys (providerData.map refKey)).length := by
    rw [recon_stats_matched_def, recon_stats_providerOnly_def,
      recon_matched_def, recon_providerOnly_def]
    rw [List.length_map]
    rw [reconLoop_length_provider (buildRefMap internalData) (buildRefMap providerData)
      (nodupKeys_buildRefMap providerData)]
    exact length_buildRefMap providerData
  refine ⟨rfl, rfl, rfl, h4, h5, ?_⟩
  intro hnd
  rw [h4, recon_stats_totalInternal_def]
  have hlt := length_distinctKeys_lt (internalData.map refKey) hnd
  have hlen : (internalData.map refKey).length = internalData.length :=
    List.length_map _ _
  omega

/-- Witness for C10 at the duplicate-reference input: the bucket sum is
strictly below the raw total. -/
theorem c10_witness :
    (reconcileTransactions [tdupA, tdupB] []).stats.matched
        + (reconcileTransactions [tdupA, tdupB] []).stats.internalOnly
      < (reconcileTransactions [tdupA, tdupB] []).stats.totalInternal :=
  (c10_stats_consistency [tdupA, tdupB] []).2.2.2.2.2 (by decide)

/-! ### C5 — last-write-wins on duplicate references -/

/-- **C5**: the reference-keyed lookup retains exactly the last record
whose trimmed reference equals a key, and every record that reaches the
matched / internalOnly / providerOnly buckets is the retained last record
for its own key. -/
theorem c5_last_write_wins (internalData providerData : List Transaction) (k : String) :
    mapGet (buildRefMap internalData) k = lastWithReference internalData k
    ∧ (∀ m ∈ (reconcileTransactions internalData providerData).matched,
        refKey m.internal = k → lastWithReference internalData k = some m.internal)
    ∧ (∀ t ∈ (reconcileTransactions internalData providerData).internalOnly,
        refKey t = k → lastWithReference internalData k = some t)
    ∧ (∀ m ∈ (reconcileTransactions internalData providerData).matched,
        refKey m.provider = k → lastWithReference providerData k = some m.provider)
    ∧ (∀ t ∈ (reconcileTransactions internalData providerData).providerOnly,
        refKey t = k → lastWithReference providerData k = some t) := by
  refine ⟨mapGet_buildRefMap internalData k, ?_, ?_, ?_, ?_⟩
  · intro m hm hk
    rw [recon_matched_def] at hm
    obtain ⟨k0, hki, hkp⟩ := reconLoop_matched_mem _ _ m hm
    have hk0 : k0 = refKey m.internal := (mem_buildRefMap internalData (k0, m.internal) hki).1
    have hget : mapGet (buildRefMap internalData) k0 = some m.internal :=
      mapGet_some_of_mem _ _ _ (nodupKeys_buildRefMap internalData) hki
    rw [← mapGet_buildRefMap, ← hk, ← hk0]
    exact hget
  · intro t ht hk
    rw [recon_internalOnly_def] at ht
    obtain ⟨k0, hki⟩ := reconLoop_internalOnly_mem _ _ t ht
    have hk0 : k0 = refKey t := (mem_buildRefMap internalData (k0, t) hki).1
    have hget : mapGet (buildRefMap internalData) k0 = some t :=
      mapGet_some_of_mem _ _ _ (nodupKeys_buildRefMap internalData) hki
    rw [← mapGet_buildRefMap, ← hk, ← hk0]
    exact hget
  · intro m hm hk
    rw [recon_matched_def] at hm
    obtain ⟨k0, hki, hkp⟩ := reconLoop_matched_mem _ _ m hm
    have hk0 : k0 = refKey m.provider := (mem_buildRefMap providerData (k0, m.provider) hkp).1
    have hget : mapGet (buildRefMap providerData) k0 = some m.provider :=
      mapGet_some_of_mem _ _ _ (nodupKeys_buildRefMap providerData) hkp
    rw [← mapGet_buildRefMap, ← hk, ← hk0]
    exact hget
  · intro t ht hk
    rw [recon_providerOnly_def] at ht
    obtain ⟨⟨k0, v⟩, hemem, hvt⟩ := List.mem_map.mp ht
    have hrem : (k0, v) ∈ buildRefMap providerData :=
      reconLoop_remaining_mem _ _ (k0, v) hemem
    have hk0 : k0 = refKey v := (mem_buildRefMap providerData (k0, v) hrem).1
    have hget : mapGet (buildRefMap providerData) k0 = some v :=
      mapGet_some_of_mem _ _ _ (nodupKeys_buildRefMap providerData) hrem
    have hvt' : v = t := hvt
    rw [← hvt'] at hk ⊢
    rw [← mapGet_buildRefMap, ← hk, ← hk0]
    exact hget

/-- Witness for C5: of the two records sharing reference D, the lookup
retains the later one, and it is the one placed in internalOnly. -/
theorem c5_witness :
    lastWithReference [tdupA, tdupB] "D" = some tdupB :=
  (c5_last_write_wins [tdupA, tdupB] [] "D").2.2.1 tdupB (by decide) (by decide)

/-! ### C7 — deterministic output ordering -/

theorem map_fst_filter_keys {α : Type} (l : List (String × α)) (p : String → Bool) :
    (l.filter (fun e => p e.1)).map Prod.fst = (l.map Prod.fst).filter p := by
  induction l with
  | nil => rfl
  | cons x xs ih =>
    by_cases hx : p x.1 = true
    · simp [List.filter_cons, List.map_cons, hx, ih]
    · have hx' : p x.1 = false := by simpa using hx
      simp [List.filter_cons, List.map_cons, hx', ih]

theorem filterMap_isSome_map {α β γ : Type} (l : List α) (o : α → Option γ) (g : α → β) :
    l.filterMap (fun e => (o e).map (fun _ => g e))
      = (l.filter (fun e => (o e).isSome)).map g := by
  induction l with
  | nil => rfl
  | cons x xs ih =>
    rcases hx : o x with _ | v
    · simp [List.filterMap_cons, List.filter_cons, hx, ih]
    · simp [List.filterMap_cons, List.filter_cons, hx, ih]

/-- **C7**: the trimmed-reference key sequences of the three result
buckets are exactly the first-occurrence key lists of the inputs,
filtered by presence or absence in the other side: matched and
internalOnly follow first-insertion order of the internal lookup table,
providerOnly follows first-insertion order of the remaining provider
keys; nothing is re-sorted. -/
theorem c7_output_ordering (internalData providerData : List Transaction) :
    (reconcileTransactions internalData providerData).matched.map
        (fun m => refKey m.internal)
      = (distinctKeys (internalData.map refKey)).filter
          (fun k => decide (k ∈ distinctKeys (providerData.map refKey)))
    ∧ (reconcileTransactions internalData providerData).internalOnly.map refKey
      = (distinctKeys (internalData.map refKey)).filter
          (fun k => !decide (k ∈ distinctKeys (providerData.map refKey)))
    ∧ (reconcileTransactions internalData providerData).providerOnly.map refKey
      = (distinctKeys (providerData.map refKey)).filter
          (fun k => !decide (k ∈ distinctKeys (internalData.map refKey))) := by
  have hchar := reconLoop_eq (buildRefMap internalData) (buildRefMap providerData)
    (nodupKeys_buildRefMap internalData)
  refine ⟨?_, ?_, ?_⟩
  · rw [recon_matched_def, hchar]
    show (List.filterMap _ (buildRefMap internalData)).map _ = _
    rw [List.map_filterMap]
    rw [List.filterMap_congr (g := fun e =>
      (mapGet (buildRefMap providerData) e.1).map (fun _ => e.1)) ?_]
    · rw [filterMap_isSome_map (buildRefMap internalData)
        (fun e => mapGet (buildRefMap providerData) e.1) Prod.fst]
      rw [map_fst_filter_keys (buildRefMap internalData)
        (fun k => (mapGet (buildRefMap providerData) k).isSome), buildRefMap_keys]
      apply List.filter_congr
      intro k hk
      by_cases hmem : k ∈ (buildRefMap providerData).map Prod.fst
      · have h1 := (mapGet_isSome_iff (buildRefMap providerData) k).mpr hmem
        have h2 : k ∈ distinctKeys (providerData.map refKey) := by
          rw [← buildRefMap_keys]
          exact hmem
        simp [h1, h2]
      · have h1 : mapGet (buildRefMap providerData) k = none :=
          (mapGet_eq_none_iff _ k).mpr hmem
        have h2 : k ∉ distinctKeys (providerData.map refKey) := by
          rw [← buildRefMap_keys]
          exact hmem
        simp [h1, h2]
    · intro e he
      rw [Option.map_map]
      have hek : e.1 = refKey e.2 := (mem_buildRefMap internalData e he).1
      congr 1
      funext q
      show refKey e.2 = e.1
      rw [hek]
  · rw [recon_internalOnly_def, hchar]
    show ((List.filter _ (buildRefMap internalData)).map Prod.snd).map refKey = _
    rw [List.map_map]
    rw [List.map_congr_left (g := Prod.fst) ?_]
    · rw [map_fst_filter_keys (buildRefMap internalData)
        (fun k => (mapGet (buildRefMap providerData) k).isNone), buildRefMap_keys]
      apply List.filter_congr
      intro k hk
      by_cases hmem : k ∈ (buildRefMap providerData).map Prod.fst
      · have h1 := (mapGet_isSome_iff (buildRefMap providerData) k).mpr hmem
        have h2 : k ∈ distinctKeys (providerData.map refKey) := by
          rw [← buildRefMap_keys]
          exact hmem
        rcases hval : mapGet (buildRefMap providerData) k with _ | v
        · rw [hval] at h1
          cases h1
        · simp [hval, h2]
      · have h1 : mapGet (buildRefMap providerData) k = none :=
          (mapGet_eq_none_iff _ k).mpr hmem
        have h2 : k ∉ distinctKeys (providerData.map refKey) := by
          rw [← buildRefMap_keys]
          exact hmem
        simp [h1, h2]
    · intro e he
      have he' : e ∈ buildRefMap internalData := List.mem_of_mem_filter he
      show refKey e.2 = e.1
      rw [(mem_buildRefMap internalData e he').1]
  · rw [recon_providerOnly_def, hchar]
    show ((List.filter _ (buildRefMap providerData)).map Prod.snd).map refKey = _
    rw [List.map_map]
    rw [List.map_congr_left (g := Prod.fst) ?_]
    · rw [map_fst_filter_keys (buildRefMap providerData)
        (fun k => !decide (k ∈ (buildRefMap internalData).map Prod.fst))]
      simp only [buildRefMap_keys]
    · intro e he
      have he' : e ∈ buildRefMap providerData := List.mem_of_mem_filter he
      show refKey e.2 = e.1
      rw [(mem_buildRefMap providerData e he').1]

/-! ### C2 — mismatch symmetry -/

theorem compareAmount_eq_nil_iff (oa ob : Option ℚ) :
    compareAmount oa ob = []
      ↔ ∀ a b, oa = some a → ob = some b → |a - b| < 1 / 100 := by
  rcases oa with _ | a
  · simp [compareAmount]
  · rcases ob with _ | b
    · simp [compareAmount]
    · by_cases h : |a - b| < 1 / 100
      · simp [compareAmount, jsAbs_eq_abs, h]
      · simp [compareAmount, jsAbs_eq_abs, h]

theorem compareText_eq_nil_iff (f : String) (oa ob : Option String) :
    compareText f oa ob = [] ↔ textFieldAgrees oa ob := by
  unfold textFieldAgrees
  rcases oa with _ | a
  · simp [compareText]
  · rcases ob with _ | b
    · simp [compareText]
    · by_cases h : jsToLower a = jsToLower b
      · simp [compareText, h]
      · simp [compareText, h]

theorem mem_compareAmount_field (oa ob : Option ℚ) (x : FieldMismatch)
    (h : x ∈ compareAmount oa ob) : x.field = "amount" := by
  rcases oa with _ | a
  · simp [compareAmount] at h
  · rcases ob with _ | b
    · simp [compareAmount] at h
    · simp only [compareAmount] at h
      by_cases hc : jsAbs (a - b) < 1 / 100
      · rw [if_pos hc] at h
        cases h
      · rw [if_neg hc] at h
        rw [List.mem_singleton.mp h]

theorem mem_compareText_field (f : String) (oa ob : Option String) (x : FieldMismatch)
    (h : x ∈ compareText f oa ob) : x.field = f := by
  rcases oa with _ | a
  · simp [compareText] at h
  · rcases ob with _ | b
    · simp [compareText] at h
    · simp only [compareText] at h
      by_cases hc : jsToLower a = jsToLower b
      · rw [if_pos hc] at h
        cases h
      · rw [if_neg hc] at h
        rw [List.mem_singleton.mp h]

theorem compareAmount_none (oa ob : Option ℚ)
    (h : oa = none ∨ ob = none) : compareAmount oa ob = [] := by
  rcases h with h | h
  · rw [h]
    rfl
  · rw [h]
    rcases oa with _ | a <;> rfl

theorem compareText_none (f : String) (oa ob : Option String)
    (h : oa = none ∨ ob = none) : compareText f oa ob = [] := by
  rcases h with h | h
  · rw [h]
    rfl
  · rw [h]
    rcases oa with _ | a <;> rfl

theorem count_zero_of_field_ne (l : List FieldMismatch) (x : FieldMismatch)
    (h : ∀ y ∈ l, y.field ≠ x.field) : l.count x = 0 :=
  List.count_eq_zero.mpr fun hx => (h x hx) rfl

theorem findFieldMismatches_decomp (i p : Transaction) :
    findFieldMismatches i p
      = compareAmount i.amount p.amount
          ++ compareText "status" i.status p.status
          ++ compareText "date" i.date p.date :=
  rfl

/-- **C2**: a matched pair has zero mismatches exactly when each of
amount (0.01 tolerance), status and date (case-insensitive) agrees or is
absent on a side; an unequal comparison records exactly one FieldMismatch
carrying both raw values, and an absent side records none for that
field. -/
theorem c2_mismatch_symmetry (internalData providerData : List Transaction)
    (m : TransactionMatch)
    (hm : m ∈ (reconcileTransactions internalData providerData).matched) :
    (m.mismatches = [] ↔
      amountFieldAgrees m.internal m.provider
        ∧ textFieldAgrees m.internal.status m.provider.status
        ∧ textFieldAgrees m.internal.date m.provider.date)
    ∧ (∀ a b, m.internal.amount = some a → m.provider.amount = some b →
        ¬ |a - b| < 1 / 100 →
        m.mismatches.count ⟨"amount", .num a, .num b⟩ = 1)
    ∧ (∀ a b, m.internal.status = some a → m.provider.status = some b →
        jsToLower a ≠ jsToLower b →
        m.mismatches.count ⟨"status", .str a, .str b⟩ = 1)
    ∧ (∀ a b, m.internal.date = some a → m.provider.date = some b →
        jsToLower a ≠ jsToLower b →
        m.mismatches.count ⟨"date", .str a, .str b⟩ = 1)
    ∧ ((m.internal.amount = none ∨ m.provider.amount = none) →
        ∀ x ∈ m.mismatches, x.field ≠ "amount")
    ∧ ((m.internal.status = none ∨ m.provider.status = none) →
        ∀ x ∈ m.mismatches, x.field ≠ "status")
    ∧ ((m.internal.date = none ∨ m.provider.date = none) →
        ∀ x ∈ m.mismatches, x.field ≠ "date") := by
  rw [recon_matched_def] at hm
  have hfm : m.mismatches = findFieldMismatches m.internal m.provider :=
    reconLoop_matched_mismatches _ _ m hm
  rw [hfm, findFieldMismatches_decomp]
  refine ⟨?_, ?_, ?_, ?_, ?_, ?_, ?_⟩
  · rw [List.append_eq_nil, List.append_eq_nil]
    rw [compareAmount_eq_nil_iff, compareText_eq_nil_iff, compareText_eq_nil_iff]
    unfold amountFieldAgrees
    tauto
  · intro a b ha hb hne
    have hne2 : ¬ jsAbs (a - b) < 1 / 100 := by
      rw [jsAbs_eq_abs]
      exact hne
    have hA : compareAmount m.internal.amount m.provider.amount
        = [⟨"amount", .num a, .num b⟩] := by
      rw [ha, hb]
      simp only [compareAmount]
      rw [if_neg hne2]
    rw [List.count_append, List.count_append, hA]
    have hS := count_zero_of_field_ne (compareText "status" m.internal.status m.provider.status)
      ⟨"amount", .num a, .num b⟩ (fun y hy => by
        rw [mem_compareText_field "status" _ _ y hy]
        show ("status" : String) ≠ "amount"
        decide)
    have hD := count_zero_of_field_ne (compareText "date" m.internal.date m.provider.date)
      ⟨"amount", .num a, .num b⟩ (fun y hy => by
        rw [mem_compareText_field "date" _ _ y hy]
        show ("date" : String) ≠ "amount"
        decide)
    rw [hS, hD]
    simp [List.count_singleton]
  · intro a b ha hb hne
    have hS : compareText "status" m.internal.status m.provider.status
        = [⟨"status", .str a, .str b⟩] := by
      rw [ha, hb]
      simp only [compareText]
      rw [if_neg hne]
    rw [List.count_append, List.count_append, hS]
    have hA := count_zero_of_field_ne (compareAmount m.internal.amount m.provider.amount)
      ⟨"status", .str a, .str b⟩ (fun y hy => by
        rw [mem_compareAmount_field _ _ y hy]
        show ("amount" : String) ≠ "status"
        decide)
    have hD := count_zero_of_field_ne (compareText "date" m.internal.date m.provider.date)
      ⟨"status", .str a, .str b⟩ (fun y hy => by
        rw [mem_compareText_field "date" _ _ y hy]
        show ("date" : String) ≠ "status"
        decide)
    rw [hA, hD]
    simp [List.count_singleton]
  · intro a b ha hb hne
    have hD : compareText "date" m.internal.date m.provider.date
        = [⟨"date", .str a, .str b⟩] := by
      rw [ha, hb]
      simp only [compareText]
      rw [if_neg hne]
    rw [List.count_append, List.count_append, hD]
    have hA := count_zero_of_field_ne (compareAmount m.internal.amount m.provider.amount)
      ⟨"date", .str a, .str b⟩ (fun y hy => by
        rw [mem_compareAmount_field _ _ y hy]
        show ("amount" : String) ≠ "date"
        decide)
    have hS := count_zero_of_field_ne (compareText "status" m.internal.status m.provider.status)
      ⟨"date", .str a, .str b⟩ (fun y hy => by
        rw [mem_compareText_field "status" _ _ y hy]
        show ("status" : String) ≠ "date"
        decide)
    rw [hA, hS]
    simp [List.count_singleton]
  · intro hnone x hx
    rw [compareAmount_none _ _ hnone, List.nil_append] at hx
    rcases List.mem_append.mp hx with hx | hx
    · rw [mem_compareText_field "status" _ _ x hx]
      show ("status" : String) ≠ _
      decide
    · rw [mem_compareText_field "date" _ _ x hx]
      show ("date" : String) ≠ _
      decide
  · intro hnone x hx
    rw [compareText_none "status" _ _ hnone] at hx
    rcases List.mem_append.mp hx with hx | hx
    · rcases List.mem_append.mp hx with hx | hx
      · rw [mem_compareAmount_field _ _ x hx]
        show ("amount" : String) ≠ _
        decide
      · simp at hx
    · rw [mem_compareText_field "date" _ _ x hx]
      show ("date" : String) ≠ _
      decide
  · intro hnone x hx
    rw [compareText_none "date" _ _ hnone] at hx
    rcases List.mem_append.mp hx with hx | hx
    · rcases List.mem_append.mp hx with hx | hx
      · rw [mem_compareAmount_field _ _ x hx]
        show ("amount" : String) ≠ _
        decide
      · rw [mem_compareText_field "status" _ _ x hx]
        show ("status" : String) ≠ _
        decide
    · simp at hx

/-- Witness for C2 at the concrete matched pair of tm1 and tm1b: their
mismatch list is empty exactly because all three fields agree. -/
theorem c2_witness :
    (⟨tm1, tm1b, []⟩ : TransactionMatch).mismatches = []
      ↔ amountFieldAgrees tm1 tm1b
          ∧ textFieldAgrees tm1.status tm1b.status
          ∧ textFieldAgrees tm1.date tm1b.date :=
  (c2_mismatch_symmetry [tm1] [tm1b] ⟨tm1, tm1b, []⟩ (by decide)).1

/-! ### Lemmas about the batch orchestrator -/

theorem processPair_of_ok (p : FilePair) (r : ReconciliationResult)
    (h : reconcileTransactionsE p.internalFile.data p.providerFile.data = .ok r) :
    processPair p
      = { p with status := .completed, result := some r, processedAt := true } := by
  unfold processPair finishPair markProcessing
  simp [h]

theorem processPair_of_error (p : FilePair) (e : String)
    (h : reconcileTransactionsE p.internalFile.data p.providerFile.data = .error e) :
    processPair p
      = { p with status := .failed, error := some e, processedAt := true } := by
  unfold processPair finishPair markProcessing
  simp [h]

theorem batch_filePairs_def (pairs : List FilePair) :
    (processBatchReconciliation pairs).filePairs = pairs.map processPair :=
  rfl

theorem batch_totalFilePairs_def (pairs : List FilePair) :
    (processBatchReconciliation pairs).aggregateStats.totalFilePairs
      = (pairs.map processPair).length :=
  rfl

theorem batch_successfulPairs_def (pairs : List FilePair) :
    (processBatchReconciliation pairs).aggregateStats.successfulPairs
      = ((pairs.map processPair).filter
          (fun q => decide (q.status = PairStatus.completed) && q.result.isSome)).length :=
  rfl

theorem batch_failedPairs_def (pairs : List FilePair) :
    (processBatchReconciliation pairs).aggregateStats.failedPairs
      = ((pairs.map processPair).filter
          (fun q => decide (q.status = PairStatus.failed))).length :=
  rfl

theorem batch_totalTransactionsInternal_def (pairs : List FilePair) :
    (processBatchReconciliation pairs).aggregateStats.totalTransactionsInternal
      = (((pairs.map processPair).filter
            (fun q => decide (q.status = PairStatus.completed) && q.result.isSome)).map
          (pairResultStat (·.totalInternal))).sum :=
  rfl

theorem batch_totalTransactionsProvider_def (pairs : List FilePair) :
    (processBatchReconciliation pairs).aggregateStats.totalTransactionsProvider
      = (((pairs.map processPair).filter
            (fun q => decide (q.status = PairStatus.completed) && q.result.isSome)).map
          (pairResultStat (·.totalProvider))).sum :=
  rfl

theorem batch_totalMatched_def (pairs : List FilePair) :
    (processBatchReconciliation pairs).aggregateStats.totalMatched
      = (((pairs.map processPair).filter
            (fun q => decide (q.status = PairStatus.completed) && q.result.isSome)).map
          (pairResultStat (·.matched))).sum :=
  rfl

theorem batch_totalInternalOnly_def (pairs : List FilePair) :
    (processBatchReconciliation pairs).aggregateStats.totalInternalOnly
      = (((pairs.map processPair).filter
            (fun q => decide (q.status = PairStatus.completed) && q.result.isSome)).map
          (pairResultStat (·.internalOnly))).sum :=
  rfl

theorem batch_totalProviderOnly_def (pairs : List FilePair) :
    (processBatchReconciliation pairs).aggregateStats.totalProviderOnly
      = (((pairs.map processPair).filter
            (fun q => decide (q.status = PairStatus.completed) && q.result.isSome)).map
          (pairResultStat (·.providerOnly))).sum :=
  rfl

theorem batch_successful_count (pairs : List FilePair) :
    ((pairs.map processPair).filter
        (fun q => decide (q.status = PairStatus.completed) && q.result.isSome)).length
      = pairs.countP pairOk := by
  induction pairs with
  | nil => rfl
  | cons p rest ih =>
    rcases h : reconcileTransactionsE p.internalFile.data p.providerFile.data with e | r
    · simp only [List.map_cons, List.filter_cons, List.countP_cons,
        processPair_of_error p e h]
      simp [pairOk, h, Except.isOk, Except.toBool, ih]
    · simp only [List.map_cons, List.filter_cons, List.countP_cons,
        processPair_of_ok p r h]
      simp [pairOk, h, Except.isOk, Except.toBool, ih]

theorem batch_failed_count (pairs : List FilePair) :
    ((pairs.map processPair).filter
        (fun q => decide (q.status = PairStatus.failed))).length
      = pairs.countP (fun p => !(pairOk p)) := by
  induction pairs with
  | nil => rfl
  | cons p rest ih =>
    rcases h : reconcileTransactionsE p.internalFile.data p.providerFile.data with e | r
    · simp only [List.map_cons, List.filter_cons, List.countP_cons,
        processPair_of_error p e h]
      simp [pairOk, h, Except.isOk, Except.toBool, ih]
    · simp only [List.map_cons, List.filter_cons, List.countP_cons,
        processPair_of_ok p r h]
      simp [pairOk, h, Except.isOk, Except.toBool, ih]

theorem countP_pairOk_split (pairs : List FilePair) :
    pairs.countP (fun p => !(pairOk p)) + pairs.countP pairOk = pairs.length := by
  induction pairs with
  | nil => rfl
  | cons p rest ih =>
    cases hok : pairOk p
    · simp only [List.countP_cons, hok]
      simp
      omega
    · simp only [List.countP_cons, hok]
      simp
      omega

theorem batch_sum_stat (pairs : List FilePair) (f : ReconciliationStats → ℕ) :
    (((pairs.map processPair).filter
        (fun q => decide (q.status = PairStatus.completed) && q.result.isSome)).map
      (pairResultStat f)).sum
      = (pairs.map (fun p =>
          match reconcileTransactionsE p.internalFile.data p.providerFile.data with
          | .ok r => f r.stats
          | .error _ => 0)).sum := by
  induction pairs with
  | nil => rfl
  | cons p rest ih =>
    rcases h : reconcileTransactionsE p.internalFile.data p.providerFile.data with e | r
    · simp only [List.map_cons, List.filter_cons, processPair_of_error p e h, h]
      simp [ih]
    · simp only [List.map_cons, List.filter_cons, processPair_of_ok p r h, h]
      simp [pairResultStat, ih]

/-! ### C4 — batch partial-failure isolation -/

/-- **C4**: a batch in which exactly one pair fails still processes every
pair, marks the failing pair failed with an error message attached,
reports successfulPairs = N-1 and failedPairs = 1, and the transaction
and match totals are sums over the successful matcher runs only (a
failing pair contributes zero but still counts in totalFilePairs). -/
theorem c4_batch_isolation (pairs : List FilePair)
    (h : pairs.countP (fun p => !(pairOk p)) = 1) :
    (processBatchReconciliation pairs).filePairs.length = pairs.length
    ∧ (processBatchReconciliation pairs).aggregateStats.totalFilePairs = pairs.length
    ∧ (processBatchReconciliation pairs).aggregateStats.failedPairs = 1
    ∧ (processBatchReconciliation pairs).aggregateStats.successfulPairs
        = pairs.length - 1
    ∧ (∀ p ∈ pairs, pairOk p = false →
        (processPair p).status = PairStatus.failed
          ∧ (processPair p).error.isSome = true
          ∧ processPair p ∈ (processBatchReconciliation pairs).filePairs)
    ∧ (processBatchReconciliation pairs).aggregateStats.totalTransactionsInternal
        = (pairs.map (fun p =>
            match reconcileTransactionsE p.internalFile.data p.providerFile.data with
            | .ok r => r.stats.totalInternal
            | .error _ => 0)).sum
    ∧ (processBatchReconciliation pairs).aggregateStats.totalTransactionsProvider
        = (pairs.map (fun p =>
            match reconcileTransactionsE p.internalFile.data p.providerFile.data with
            | .ok r => r.stats.totalProvider
            | .error _ => 0)).sum
    ∧ (processBatchReconciliation pairs).aggregateStats.totalMatched
        = (pairs.map (fun p =>
            match reconcileTransactionsE p.internalFile.data p.providerFile.data with
            | .ok r => r.stats.matched
            | .error _ => 0)).sum
    ∧ (processBatchReconciliation pairs).aggregateStats.totalInternalOnly
        = (pairs.map (fun p =>
            match reconcileTransactionsE p.internalFile.data p.providerFile.data with
            | .ok r => r.stats.internalOnly
            | .error _ => 0)).sum
    ∧ (processBatchReconciliation pairs).aggregateStats.totalProviderOnly
        = (pairs.map (fun p =>
            match reconcileTransactionsE p.internalFile.data p.providerFile.data with
            | .ok r => r.stats.providerOnly
            | .error _ => 0)).sum := by
  have hsplit := countP_pairOk_split pairs
  refine ⟨?_, ?_, ?_, ?_, ?_, ?_, ?_, ?_, ?_, ?_⟩
  · rw [batch_filePairs_def, List.length_map]
  · rw [batch_totalFilePairs_def, List.length_map]
  · rw [batch_failedPairs_def, batch_failed_count, h]
  · rw [batch_successfulPairs_def, batch_successful_count]
    omega
  · intro p hp hnok
    rcases hE : reconcileTransactionsE p.internalFile.data p.providerFile.data with e | r
    · rw [processPair_of_error p e hE]
      refine ⟨rfl, rfl, ?_⟩
      rw [← processPair_of_error p e hE, batch_filePairs_def]
      exact List.mem_map_of_mem processPair hp
    · rw [pairOk, hE] at hnok
      cases hnok
  · rw [batch_totalTransactionsInternal_def]
    exact batch_sum_stat pairs (·.totalInternal)
  · rw [batch_totalTransactionsProvider_def]
    exact batch_sum_stat pairs (·.totalProvider)
  · rw [batch_totalMatched_def]
    exact batch_sum_stat pairs (·.matched)
  · rw [batch_totalInternalOnly_def]
    exact batch_sum_stat pairs (·.internalOnly)
  · rw [batch_totalProviderOnly_def]
    exact batch_sum_stat pairs (·.providerOnly)

/-- Witness for C4 at a concrete two-pair batch in which the second pair
is crafted to fail (a raw row without a reference). -/
theorem c4_witness :
    (processBatchReconciliation [goodPair, badPair]).aggregateStats.failedPairs = 1
    ∧ (processBatchReconciliation [goodPair, badPair]).aggregateStats.successfulPairs = 1
    ∧ (processBatchReconciliation [goodPair, badPair]).aggregateStats.totalFilePairs = 2 := by
  have h := c4_batch_isolation [goodPair, badPair] (by decide)
  exact ⟨h.2.2.1, h.2.2.2.1, h.2.1⟩

/-! ### C8 — per-pair state machine and terminal batch outcome -/

/-- **C8**: a pending pair steps through the trace
pending → processing → (completed | failed), each step allowed by the
state machine, and every pair returned by a batch run is terminal:
completed with a result and timestamp, or failed with an error and
timestamp — never pending or processing. -/
theorem c8_state_machine (pair : FilePair) (pairs : List FilePair) :
    (pair.status = PairStatus.pending →
      List.Chain' StatusStep (statusTrace pair)
      ∧ (statusTrace pair = [.pending, .processing, .completed]
          ∨ statusTrace pair = [.pending, .processing, .failed]))
    ∧ (∀ q ∈ (processBatchReconciliation pairs).filePairs,
        (q.status = PairStatus.completed ∧ q.result.isSome = true
            ∧ q.processedAt = true)
        ∨ (q.status = PairStatus.failed ∧ q.error.isSome = true
            ∧ q.processedAt = true)) := by
  constructor
  · intro hpend
    have htr : statusTrace pair
        = [pair.status, PairStatus.processing, (processPair pair).status] := rfl
    rcases hE : reconcileTransactionsE pair.internalFile.data pair.providerFile.data
      with e | r
    · have hst : (processPair pair).status = PairStatus.failed := by
        rw [processPair_of_error pair e hE]
      have heq : statusTrace pair = [.pending, .processing, .failed] := by
        rw [htr, hpend, hst]
      refine ⟨?_, Or.inr heq⟩
      rw [heq]
      exact List.chain'_cons.mpr ⟨StatusStep.start,
        List.chain'_cons.mpr ⟨StatusStep.fail, List.chain'_singleton _⟩⟩
    · have hst : (processPair pair).status = PairStatus.completed := by
        rw [processPair_of_ok pair r hE]
      have heq : statusTrace pair = [.pending, .processing, .completed] := by
        rw [htr, hpend, hst]
      refine ⟨?_, Or.inl heq⟩
      rw [heq]
      exact List.chain'_cons.mpr ⟨StatusStep.start,
        List.chain'_cons.mpr ⟨StatusStep.complete, List.chain'_singleton _⟩⟩
  · intro q hq
    rw [batch_filePairs_def] at hq
    obtain ⟨p, hp, rfl⟩ := List.mem_map.mp hq
    rcases hE : reconcileTransactionsE p.internalFile.data p.providerFile.data with e | r
    · right
      rw [processPair_of_error p e hE]
      exact ⟨rfl, rfl, rfl⟩
    · left
      rw [processPair_of_ok p r hE]
      exact ⟨rfl, rfl, rfl⟩

/-- Witness for C8 at concrete pairs: the good pending pair completes,
the bad pending pair fails, both through the allowed transitions. -/
theorem c8_witness :
    (statusTrace goodPair = [.pending, .processing, .completed]
      ∨ statusTrace goodPair = [.pending, .processing, .failed])
    ∧ List.Chain' StatusStep (statusTrace badPair)
    ∧ (((processPair badPair).status = PairStatus.failed
        ∧ (processPair badPair).error.isSome = true
        ∧ (processPair badPair).processedAt = true)
      ∨ ((processPair badPair).status = PairStatus.completed
        ∧ (processPair badPair).result.isSome = true
        ∧ (processPair badPair).processedAt = true)) := by
  have hg := (c8_state_machine goodPair []).1 rfl
  have hb := (c8_state_machine badPair []).1 rfl
  have hmem : processPair badPair ∈ (processBatchReconciliation [badPair]).filePairs := by
    rw [batch_filePairs_def]
    exact List.mem_map_of_mem processPair (List.mem_singleton.mpr rfl)
  have hterm := (c8_state_machine badPair [badPair]).2 (processPair badPair) hmem
  exact ⟨hg.2, hb.1, hterm.symm⟩

/-! ### C9 — match-rate insight classification -/

theorem trendInsight_not_matchRate (r : ℚ) (l : List HistoricalRecord)
    (i : AnalyticsInsight) (h : i ∈ trendInsight r l) :
    isMatchRateInsight i = false := by
  unfold trendInsight at h
  by_cases h2 : 2 ≤ l.length
  · rw [if_pos h2] at h
    split at h
    · dsimp only at h
      split at h
      · rw [List.mem_singleton.mp h]
        rfl
      · cases h
    · cases h
  · rw [if_neg h2] at h
    cases h

theorem batchFailureInsight_not_matchRate (result : ReconResult)
    (i : AnalyticsInsight) (h : i ∈ batchFailureInsight result) :
    isMatchRateInsight i = false := by
  rcases result with r | b
  · cases h
  · simp only [batchFailureInsight] at h
    split at h
    · rw [List.mem_singleton.mp h]
      rfl
    · cases h

/-- **C9**: the insight generator emits exactly one match-rate insight,
classified Excellent (success) for rates at least 95, Good (info) for
rates in [85, 95), and Low Match Rate Alert (warning) below 85.  The
embedding is a pure function of its inputs, so the input result is never
mutated. -/
theorem c9_match_rate_insight (currentResult : ReconResult)
    (historicalRecords : List HistoricalRecord) :
    ((generateInsights currentResult historicalRecords).countP isMatchRateInsight = 1)
    ∧ (95 ≤ resultMatchRate currentResult →
        (⟨"high-match-rate", .success, "Excellent Match Rate", .low⟩ : AnalyticsInsight)
          ∈ generateInsights currentResult historicalRecords)
    ∧ (85 ≤ resultMatchRate currentResult → resultMatchRate currentResult < 95 →
        (⟨"good-match-rate", .info, "Good Match Rate", .medium⟩ : AnalyticsInsight)
          ∈ generateInsights currentResult historicalRecords)
    ∧ (resultMatchRate currentResult < 85 →
        (⟨"low-match-rate", .warning, "Low Match Rate Alert", .high⟩ : AnalyticsInsight)
          ∈ generateInsights currentResult historicalRecords) := by
  have hid : generateInsights currentResult historicalRecords
      = (if 95 ≤ resultMatchRate currentResult then
          [⟨"high-match-rate", .success, "Excellent Match Rate", .low⟩]
        else if 85 ≤ resultMatchRate currentResult then
          [⟨"good-match-rate", .info, "Good Match Rate", .medium⟩]
        else [⟨"low-match-rate", .warning, "Low Match Rate Alert", .high⟩])
        ++ (if 10000 < resultTotalTransactions currentResult then
            [⟨"high-volume", .info, "High Volume Processing", .medium⟩]
          else [])
        ++ trendInsight (resultMatchRate currentResult) historicalRecords
        ++ batchFailureInsight currentResult := rfl
  have htrend : (trendInsight (resultMatchRate currentResult)
      historicalRecords).countP isMatchRateInsight = 0 :=
    List.countP_eq_zero.mpr fun i hi => by
      rw [trendInsight_not_matchRate _ _ i hi]
      simp
  have hbatch : (batchFailureInsight currentResult).countP isMatchRateInsight = 0 :=
    List.countP_eq_zero.mpr fun i hi => by
      rw [batchFailureInsight_not_matchRate _ i hi]
      simp
  have hvol : (if 10000 < resultTotalTransactions currentResult then
      [(⟨"high-volume", .info, "High Volume Processing", .medium⟩ : AnalyticsInsight)]
    else []).countP isMatchRateInsight = 0 := by
    split
    · rfl
    · rfl
  refine ⟨?_, ?_, ?_, ?_⟩
  · rw [hid, List.countP_append, List.countP_append, List.countP_append]
    rw [htrend, hbatch, hvol]
    by_cases h95 : 95 ≤ resultMatchRate currentResult
    · rw [if_pos h95]
      rfl
    · rw [if_neg h95]
      by_cases h85 : 85 ≤ resultMatchRate currentResult
      · rw [if_pos h85]
        rfl
      · rw [if_neg h85]
        rfl
  · intro h95
    rw [hid, if_pos h95]
    simp
  · intro h85 h95
    rw [hid, if_neg (not_le.mpr h95), if_pos h85]
    simp
  · intro h85
    rw [hid, if_neg (not_le.mpr (lt_of_lt_of_le h85 (by norm_num))),
      if_neg (not_le.mpr h85)]
    simp

/-- Witness for C9 at a sample result with match rate 90: exactly one
match-rate insight, classified Good. -/
theorem c9_witness :
    (⟨"good-match-rate", .info, "Good Match Rate", .medium⟩ : AnalyticsInsight)
      ∈ generateInsights wRes90 []
    ∧ (generateInsights wRes90 []).countP isMatchRateInsight = 1 :=
  ⟨(c9_match_rate_insight wRes90 []).2.2.1
      (by norm_num [resultMatchRate, wRes90])
      (by norm_num [resultMatchRate, wRes90]),
    (c9_match_rate_insight wRes90 []).1⟩

end MiniRecon
